import Mathlib

/-!
# Verification of the dachshund coreness / truss algorithms

Shallow embedding of `src/dachshund/algorithms/coreness.rs` (trait `Coreness`),
specialised to the simple undirected node flavour (`SimpleNode`: neighbor sets
are `BTreeSet<NodeId>`, `degree()` is the neighbor-set size, edge iteration is
in ascending order).  Node ids are modelled as `Nat`.

Rust `HashMap`/`FxHashSet` values are modelled as Lean functions / `Finset`s;
ordered sets (`BTreeSet`) as sorted duplicate-free lists.  Where the Rust code
iterates over a hash container in unspecified order we fix a deterministic
order and note it at the definition.  `usize` subtraction is modelled with
wrap-around (`wsub`) where the source can underflow.

The connected-components collaborator (`_get_connected_components`,
`_get_connected_components_membership`) is not part of the sources; it is
modelled from the spec (see the marked definitions below).
-/

namespace Dachshund

/-- A simple undirected graph: the node-id list plus an adjacency function
giving each node's neighbor list (`SimpleNode.neighbors`, a `BTreeSet`, hence
sorted and duplicate-free for well-formed graphs). -/
structure SGraph where
  nodes : List Nat
  adj : Nat → List Nat

/-- `NodeBase::degree` for `SimpleNode`: the neighbor-set size. -/
def deg (g : SGraph) (v : Nat) : Nat := (g.adj v).length

/-- Well-formedness of the graph view the algorithms assume: distinct node
ids, duplicate-free neighbor sets, no self-loops, and symmetric adjacency
closed over the node set. -/
def WF (g : SGraph) : Prop :=
  g.nodes.Nodup ∧
  ∀ v ∈ g.nodes, (g.adj v).Nodup ∧ v ∉ g.adj v ∧
    ∀ w ∈ g.adj v, w ∈ g.nodes ∧ v ∈ g.adj w

instance : DecidablePred WF := fun g => by
  unfold WF; infer_instance

/-- 64-bit wrap-around subtraction: the behaviour of `usize` subtraction in
the source when it underflows (release profile). -/
def wsub (a b : Nat) : Nat := (a + (2 ^ 64 - b % 2 ^ 64)) % 2 ^ 64

/-- Ordered insertion into a sorted duplicate-free list: `BTreeSet::insert`. -/
def insertSorted (x : Nat) : List Nat → List Nat
  | [] => [x]
  | y :: l => if x < y then x :: y :: l else if x = y then y :: l else y :: insertSorted x l

/-- Pointwise decrement of a counter map at one key
(`*num_neighbors.get_mut(&x).unwrap() -= 1`).  Counters are embedded as `Int`
so that the no-underflow property is a provable statement rather than a
truncation artefact. -/
def decAt (f : Nat → Int) (x : Nat) : Nat → Int :=
  fun v => if v = x then f v - 1 else f v

/-- State of the `_get_k_cores` work loop: the ordered work queue
(`OrderedNodeSet`), the removed set (`FxHashSet<NodeId>`) and the per-node
live-degree counter map (`num_neighbors`). -/
structure KCState where
  queue : List Nat
  removed : Finset Nat
  num : Nat → Int

/-- Body of the edge loop inside `_get_k_cores`: for an edge of the popped
node `id` to `nid`, if `nid` is not removed, re-enqueue `nid` and decrement
both live-degree counters. `removed` already contains `id` at this point. -/
def kCoresEdgeStep (id : Nat) (removed : Finset Nat)
    (st : List Nat × (Nat → Int)) (nid : Nat) : List Nat × (Nat → Int) :=
  if nid ∈ removed then st
  else (insertSorted nid st.1, decAt (decAt st.2 id) nid)

/-- One iteration of the `while !queue.is_empty()` loop of `_get_k_cores`:
pop the smallest queued id; if its counter is below `k`, mark it removed and
process its edges.  When the queue is empty the state is returned unchanged,
so iterating this function is exactly the source loop. -/
def kCoresStep (g : SGraph) (k : Nat) (st : KCState) : KCState :=
  match st.queue with
  | [] => st
  | id :: rest =>
    if st.num id < (k : Int) then
      let removed' := insert id st.removed
      let p := (g.adj id).foldl (kCoresEdgeStep id removed') (rest, st.num)
      ⟨p.1, removed', p.2⟩
    else ⟨rest, st.removed, st.num⟩

/-- Initial `_get_k_cores` state: queue holds every node id in ascending
order, counters start at the full degree. -/
def kCoresInit (g : SGraph) (removed0 : Finset Nat) : KCState :=
  ⟨g.nodes.foldr insertSorted [], removed0, fun v => (deg g v : Int)⟩

/-- Total degree of the graph; used to bound the work of the peeling loop. -/
def totalDeg (g : SGraph) : Nat := (g.nodes.map (deg g)).sum

/-- Fuel for the peeling loop.  Every iteration pops one queued id; a pop
that removes a node enqueues at most `deg` ids and permanently retires that
node, so `2 * (|V| + Σ deg) + 1` iterations always reach an empty queue. -/
def kCoresFuel (g : SGraph) : Nat := 2 * (g.nodes.length + totalDeg g) + 1

/-- The state after `n` iterations of the `_get_k_cores` loop. -/
def kCoresRun (g : SGraph) (k : Nat) (removed0 : Finset Nat) (n : Nat) : KCState :=
  (kCoresStep g k)^[n] (kCoresInit g removed0)

/-- Number of neighbors of `v` outside `removed`: the live degree. -/
def liveDeg (g : SGraph) (removed : Finset Nat) (v : Nat) : Nat :=
  ((g.adj v).filter (fun w => decide (w ∉ removed))).length

/-- Ascending duplicate-free sort of a node list (`BTreeSet` iteration
order). -/
def sortNat (l : List Nat) : List Nat := l.foldr insertSorted []

/-- Modelled from the spec: one neighborhood-expansion step of the
connected-components collaborator, restricted to non-removed nodes. -/
def expandLive (g : SGraph) (removed : Finset Nat) (s : Finset Nat) : Finset Nat :=
  s ∪ s.biUnion (fun u => ((g.adj u).filter (fun w => decide (w ∉ removed))).toFinset)

/-- Modelled from the spec: all nodes reachable from `v` through non-removed
nodes (`|V|`-fold expansion reaches a fixpoint). -/
def reachLive (g : SGraph) (removed : Finset Nat) (v : Nat) : Finset Nat :=
  (expandLive g removed)^[g.nodes.length] {v}

/-- Modelled from the spec: one step of the component collection — if node
`v` is surviving and not yet assigned, emit the not-yet-assigned surviving
nodes reachable from it as a new component. -/
def ccStep (g : SGraph) (removed : Finset Nat)
    (acc : List (List Nat) × Finset Nat) (v : Nat) : List (List Nat) × Finset Nat :=
  if v ∈ removed ∨ v ∈ acc.2 then acc
  else
    let comp := sortNat (g.nodes.filter
      (fun w => decide (w ∉ removed ∧ w ∈ reachLive g removed v ∧ w ∉ acc.2)))
    (acc.1 ++ [comp], acc.2 ∪ comp.toFinset)

/-- Modelled from the spec: `_get_connected_components(Some(removed), None)`
of the external collaborator — the partition of the surviving (non-removed)
nodes into connected components, each listed in ascending order. -/
def connectedComponents (g : SGraph) (removed : Finset Nat) : List (List Nat) :=
  (g.nodes.foldl (ccStep g removed) ([], ∅)).1

/-- `_get_k_cores(k, removed)`: run the peeling loop to completion, return the
component partition of the survivors together with the final removed set
(the by-`&mut` output of the Rust function). -/
def getKCoresFrom (g : SGraph) (k : Nat) (removed0 : Finset Nat) :
    List (List Nat) × Finset Nat :=
  let st := kCoresRun g k removed0 (kCoresFuel g)
  (connectedComponents g st.removed, st.removed)

/-- `get_k_cores(k)`: peel with an initially empty removed set. -/
def getKCores (g : SGraph) (k : Nat) : List (List Nat) :=
  (getKCoresFrom g k ∅).1

/-- Total number of nodes appearing in a component partition. -/
def totalSize (cs : List (List Nat)) : Nat := (cs.map List.length).sum

/-- Record the coreness of every id of one component at level `i`
(`if !coreness.contains_key(id) { coreness.insert(*id, i + 1) }`). -/
def recordComponent (i : Nat) (m : Nat → Option Nat) (ids : List Nat) : Nat → Option Nat :=
  ids.foldl (fun m id => fun v =>
    if v = id then (match m id with | none => some (i + 1) | some c => some c) else m v) m

/-- The descending scan of `get_coreness` over the per-`k` partitions:
`for i in (0..k).rev() { for ids in &core_assignments[i] { ... } }`. -/
def corenessOfAssignments (assignments : List (List (List Nat))) (kmax : Nat) :
    Nat → Option Nat :=
  (List.range kmax).reverse.foldl
    (fun m i => (assignments.getD i []).foldl (recordComponent i) m)
    (fun _ => none)

/-- The `while removed.len() < self.count_nodes()` loop of `get_coreness`:
increase `k`, peel cumulatively, record each round's partition. -/
def corenessLoop (g : SGraph) :
    Nat → Nat → Finset Nat → List (List (List Nat)) → List (List (List Nat)) × Nat
  | 0, k, _, acc => (acc, k)
  | fuel + 1, k, removed, acc =>
    if removed.card < g.nodes.length then
      let r := getKCoresFrom g (k + 1) removed
      corenessLoop g fuel (k + 1) r.2 (acc ++ [r.1])
    else (acc, k)

/-- Largest degree in the graph. -/
def maxDeg (g : SGraph) : Nat := (g.nodes.map (deg g)).foldr max 0

/-- Fuel for the `get_coreness` round loop: every node's counter starts at
its degree, so by round `maxDeg + 1` every remaining node is removed. -/
def corenessFuel (g : SGraph) : Nat := maxDeg g + 2

/-- `get_coreness()`: the per-level partitions and the node→coreness map
(the map holds an entry only for ids that appear in some recorded
component). -/
def getCoreness (g : SGraph) : List (List (List Nat)) × (Nat → Option Nat) :=
  let r := corenessLoop g (corenessFuel g) 0 ∅ []
  (r.1, corenessOfAssignments r.1 r.2)

/-- `_init_bin_starts`: leftmost index in the degree-ordered node list whose
degree is at least each possible degree value. -/
def initBinStarts (orderedNodes : List Nat) (degree : Nat → Nat) : List Nat :=
  (orderedNodes.enum.foldl
    (fun (acc : List Nat × Nat) p =>
      let nd := degree p.2
      if acc.2 < nd then (acc.1 ++ List.replicate (nd - acc.2) p.1, nd) else acc)
    ([0], 0)).1

/-- State of the `get_coreness_fast` scan: the coreness-estimate map, the
ordering array `nodes`, the bucket-start indices, the node→position map and
the live adjacency sets. -/
structure FastState where
  coreness : Nat → Nat
  nodes : List Nat
  binStarts : List Nat
  nodeIdx : Nat → Nat
  neighbors : Nat → List Nat

/-- Initial `get_coreness_fast` state.  `coreness.keys()` is iterated in
unspecified hash order before the unstable sort by degree; we model this as a
stable sort of the node list by degree (ties keep the node-list order).  The
live adjacency hash sets are modelled as the duplicate-free neighbor lists. -/
def fastInit (g : SGraph) : FastState :=
  let nodes := List.insertionSort (fun a b => deg g a ≤ deg g b) g.nodes
  { coreness := fun v => deg g v
    nodes := nodes
    binStarts := initBinStarts nodes (fun v => deg g v)
    nodeIdx := nodes.enum.foldl (fun f p => fun v => if v = p.2 then p.1 else f v) (fun _ => 0)
    neighbors := fun v => g.adj v }

/-- Body of the `for nbr_id in node_nbrs` loop of `get_coreness_fast`: if the
neighbor's current estimate exceeds the scanned node's, delete the back-edge,
swap the neighbor to the start of its bucket (the raw pointer swap of the two
`node_idx` entries, which is a no-op when they alias), advance the bucket
start, and decrement the neighbor's estimate. -/
def fastNbrStep (nodeId : Nat) (st : FastState) (nbrId : Nat) : FastState :=
  let nbrCoreness := st.coreness nbrId
  if st.coreness nodeId < nbrCoreness then
    let nbrIdx := st.nodeIdx nbrId
    let nbrBinStart := st.binStarts.getD nbrCoreness 0
    let other := st.nodes.getD nbrBinStart 0
    { coreness := fun v => if v = nbrId then st.coreness v - 1 else st.coreness v
      nodes := (st.nodes.set nbrIdx other).set nbrBinStart (st.nodes.getD nbrIdx 0)
      binStarts := st.binStarts.set nbrCoreness (nbrBinStart + 1)
      nodeIdx := fun v =>
        if v = nbrId then st.nodeIdx other
        else if v = other then st.nodeIdx nbrId else st.nodeIdx v
      neighbors := fun v => if v = nbrId then (st.neighbors nbrId).erase nodeId else st.neighbors v }
  else st

/-- Body of the `for i in 0..nodes.len()` scan: read the node currently at
position `i`, snapshot its live neighbors (hash-set iteration modelled by the
list order) and process them. -/
def fastOuterStep (st : FastState) (i : Nat) : FastState :=
  let nodeId := st.nodes.getD i 0
  (st.neighbors nodeId).foldl (fastNbrStep nodeId) st

/-- `get_coreness_fast()`: the always-empty partition list and the final
coreness map (keyed, like the source `HashMap`, on every node). -/
def getCorenessFast (g : SGraph) : List (List (List Nat)) × (Nat → Option Nat) :=
  let final := (List.range (fastInit g).nodes.length).foldl fastOuterStep (fastInit g)
  ([], fun v => if v ∈ g.nodes then some (final.coreness v) else none)

/-- `_averaged_ties_ranking`: sort the score entries by descending value and
assign ranks 1, 2, … in that order (despite the name, ties get distinct
sequential ranks).  The argument list carries the entries in the (unspecified)
hash-map iteration order; the sort is modelled as a stable merge sort, so all
run-to-run nondeterminism of the source is captured by the entry order. -/
def averagedTiesRanking (scores : List (Nat × Nat)) : Nat → Option Nat :=
  ((List.insertionSort (fun a b => b.2 ≤ a.2) scores).enum.foldl
    (fun m p => fun v => if v = p.2.1 then some (p.1 + 1) else m v)
    (fun _ => none))

/-- Canonicalize an undirected edge as a `(lesser_id, greater_id)` pair. -/
def canonPair (a b : Nat) : Nat × Nat :=
  if a < b then (a, b) else (b, a)

/-- Lexicographic insertion into the sorted edge set (`OrderedEdgeSet`). -/
def insertEdge (e : Nat × Nat) : List (Nat × Nat) → List (Nat × Nat)
  | [] => [e]
  | f :: l =>
    if e.1 < f.1 ∨ (e.1 = f.1 ∧ e.2 < f.2) then e :: f :: l
    else if e = f then f :: l
    else f :: insertEdge e l

/-- State of the `_get_k_trusses` edge-peeling loop: per-node live neighbor
sets (targets filtered by `ignore_nodes`), the canonical edge set, and the
accumulated ignored-edge set. -/
structure TrussState where
  neighbors : Nat → List Nat
  edges : List (Nat × Nat)
  ignoreEdges : Finset (Nat × Nat)

/-- Initial `_get_k_trusses` state: neighbor sets exclude ignored targets;
the edge set holds every adjacency pair in canonical form. -/
def trussInit (g : SGraph) (ignoreNodes : Finset Nat) : TrussState :=
  { neighbors := fun v => (g.adj v).filter (fun w => decide (w ∉ ignoreNodes))
    edges := g.nodes.foldl (fun es v => (g.adj v).foldl (fun es w => insertEdge (canonPair v w) es) es) []
    ignoreEdges := ∅ }

/-- The size of the intersection of two live neighbor sets
(`n1.intersection(n2).count()`). -/
def interCount (n1 n2 : List Nat) : Nat := (n1.filter (fun w => decide (w ∈ n2))).length

/-- Body of the `for (id1, id2) in &edges` sweep: if the endpoints share
fewer than `k - 2` live common neighbors, mark the edge for removal and
delete it from both live neighbor sets at once.  The threshold `k - 2` is the
source's `usize` subtraction, hence `wsub`. -/
def trussSweepStep (k : Nat) (acc : (Nat → List Nat) × List (Nat × Nat)) (e : Nat × Nat) :
    (Nat → List Nat) × List (Nat × Nat) :=
  if interCount (acc.1 e.1) (acc.1 e.2) < wsub k 2 then
    (fun v =>
      if v = e.1 then ((acc.1 e.1).erase e.2)
      else if v = e.2 then ((acc.1 e.2).erase e.1)
      else acc.1 v,
     acc.2 ++ [e])
  else acc

/-- One full sweep of the edge-peeling loop: check every current edge, then
remove the marked ones from the edge set and record them as ignored.  Returns
the new state together with the `changes` flag. -/
def trussSweep (k : Nat) (st : TrussState) : TrussState × Bool :=
  let r := st.edges.foldl (trussSweepStep k) (st.neighbors, [])
  ({ neighbors := r.1
     edges := st.edges.filter (fun e => decide (e ∉ r.2))
     ignoreEdges := st.ignoreEdges ∪ r.2.toFinset },
   !r.2.isEmpty)

/-- The `while changes` loop of `_get_k_trusses`, with fuel: every sweep that
reports a change removed at least one edge, so `|edges| + 1` sweeps always
reach the fixpoint. -/
def trussLoop (k : Nat) : Nat → TrussState → TrussState
  | 0, st => st
  | fuel + 1, st =>
    let r := trussSweep k st
    if r.2 then trussLoop k fuel r.1 else r.1

/-- Modelled from the spec: one neighborhood-expansion step of the
connected-components collaborator cutting the graph at `ignoreEdges`. -/
def expandCut (g : SGraph) (ig : Finset (Nat × Nat)) (s : Finset Nat) : Finset Nat :=
  s ∪ s.biUnion (fun u => ((g.adj u).filter (fun w => decide (canonPair u w ∉ ig))).toFinset)

/-- Modelled from the spec: nodes reachable from `v` through edges not in
`ig`. -/
def reachCut (g : SGraph) (ig : Finset (Nat × Nat)) (v : Nat) : Finset Nat :=
  (expandCut g ig)^[g.nodes.length] {v}

/-- Modelled from the spec: `_get_connected_components_membership(None,
Some(ignore_edges))` of the external collaborator — a node→component-index
map over all nodes (components cut at the ignored edges) plus the component
count. -/
def componentsMembership (g : SGraph) (ig : Finset (Nat × Nat)) : (Nat → Option Nat) × Nat :=
  g.nodes.foldl
    (fun (acc : (Nat → Option Nat) × Nat) v =>
      if (acc.1 v).isSome then acc
      else (fun w => if w ∈ reachCut g ig v ∧ acc.1 w = none then some acc.2 else acc.1 w,
            acc.2 + 1))
    (fun _ => none, 0)

/-- The truss-collection pass at the end of `_get_k_trusses`: for every node
`id` of component `idx` and every live neighbor `nid` in the same component
with `id < nid`, insert the edge `(id, nid)` into `trusses[idx]` when it is
not ignored and still in the edge set. -/
def buildTruss (g : SGraph) (st : TrussState) (compIdx : Nat → Option Nat) (idx : Nat) :
    List (Nat × Nat) :=
  g.nodes.foldl
    (fun acc id =>
      if compIdx id = some idx then
        (st.neighbors id).foldl
          (fun acc nid =>
            if compIdx nid = some idx ∧ id < nid ∧
                (id, nid) ∉ st.ignoreEdges ∧ (id, nid) ∈ st.edges then
              insertEdge (id, nid) acc
            else acc)
          acc
      else acc)
    []

/-- The ascending node list of one truss (its edge endpoints), i.e. the
`OrderedNodeSet` built from the truss's edge set. -/
def trussNodes (t : List (Nat × Nat)) : List Nat :=
  sortNat (t.map Prod.fst ++ t.map Prod.snd)

/-- `_get_k_trusses(k, ignore_nodes)`: peel edges to fixpoint, partition at
the ignored edges, collect per-component edge sets, drop the empty ones, and
pair them with their node sets. -/
def getKTrussesAux (g : SGraph) (k : Nat) (ignoreNodes : Finset Nat) :
    List (List (Nat × Nat)) × Finset (List Nat) :=
  let st0 := trussInit g ignoreNodes
  let st := trussLoop k (st0.edges.length + 1) st0
  let m := componentsMembership g st.ignoreEdges
  let trusses := (List.range m.2).map (buildTruss g st m.1)
  let filtered := trusses.filter (fun t => decide (t ≠ []))
  (filtered, (filtered.map trussNodes).toFinset)

/-- `get_k_trusses(k)`: prune via `_get_k_cores(k - 1)` (a wrapping `usize`
subtraction) and then peel edges at support threshold `k - 2`. -/
def getKTrusses (g : SGraph) (k : Nat) :
    List (List (Nat × Nat)) × Finset (List Nat) :=
  getKTrussesAux g k (getKCoresFrom g (wsub k 1) ∅).2

/-- Triangle on nodes 1, 2, 3 plus the isolated node 4 (the §8 scenario). -/
def gTri4 : SGraph :=
  ⟨[1, 2, 3, 4], fun v =>
    if v = 1 then [2, 3] else if v = 2 then [1, 3] else if v = 3 then [1, 2] else []⟩

/-- Plain triangle on nodes 1, 2, 3. -/
def gT3 : SGraph :=
  ⟨[1, 2, 3], fun v =>
    if v = 1 then [2, 3] else if v = 2 then [1, 3] else if v = 3 then [1, 2] else []⟩

/-- Neighbors of `v` that are removed but no longer queued: exactly the
removed neighbors whose decrement pass over `v` has already happened (or, for
pre-removed neighbors with degree at least the threshold, never will). -/
def phantomCount (g : SGraph) (st : KCState) (v : Nat) : Nat :=
  ((g.adj v).filter (fun u => decide (u ∈ st.removed ∧ u ∉ st.queue))).length

/-- Invariant of the `_get_k_cores` loop (any initial removed set): a sorted
queue of graph nodes; the counter of a live node underestimates its degree by
at most the retired removed neighbors; removed-but-still-queued nodes (from a
pre-populated removed set) still carry their untouched initial counter. -/
def KCInv (g : SGraph) (st : KCState) : Prop :=
  st.queue.Pairwise (· < ·) ∧
  (∀ v ∈ st.queue, v ∈ g.nodes) ∧
  (∀ v, v ∉ st.removed → (deg g v : Int) - (phantomCount g st v : Int) ≤ st.num v) ∧
  (∀ v ∈ st.removed, v ∈ st.queue → st.num v = (deg g v : Int))

/-- Strengthened invariant for runs started with an empty removed set: the
removed set and the queue are disjoint, live counters equal live degrees
exactly, and a live node that is not queued has already passed the
threshold. -/
def KCInv0 (g : SGraph) (k : Nat) (st : KCState) : Prop :=
  st.queue.Pairwise (· < ·) ∧
  (∀ v ∈ st.queue, v ∈ g.nodes) ∧
  (∀ v ∈ st.removed, v ∉ st.queue) ∧
  (∀ v ∈ g.nodes, v ∉ st.removed → st.num v = (liveDeg g st.removed v : Int)) ∧
  (∀ v ∈ g.nodes, v ∉ st.removed → v ∉ st.queue → (k : Int) ≤ st.num v)

/-- Termination measure of the peeling loop for empty-initial-removed runs. -/
def kcPhi (g : SGraph) (st : KCState) : Nat :=
  st.queue.length + Finset.sum (g.nodes.toFinset \ st.removed) (fun v => 1 + deg g v)

/-- Invariant of the `_get_k_trusses` edge-peeling loop: neighbor sets are
duplicate-free and record exactly the graph edges to non-ignored targets
whose canonical pair has not been swept; the edge set holds exactly the
canonical adjacency pairs not yet swept, with endpoints in the graph. -/
def TrussInv (g : SGraph) (ignoreNodes : Finset Nat) (st : TrussState) : Prop :=
  (∀ u ∈ g.nodes, (st.neighbors u).Nodup) ∧
  (∀ u ∈ g.nodes, ∀ w, (w ∈ st.neighbors u ↔
    (w ∈ g.adj u ∧ w ∉ ignoreNodes ∧ canonPair u w ∉ st.ignoreEdges))) ∧
  (∀ e ∈ st.edges, e.1 < e.2 ∧ e.1 ∈ g.nodes ∧ e.2 ∈ g.nodes) ∧
  (∀ a b : Nat, a < b → a ∈ g.nodes →
    ((a, b) ∈ st.edges ↔ (b ∈ g.adj a ∧ (a, b) ∉ st.ignoreEdges)))

/-- Number of common neighbors of the endpoints of `e` through edges of the
truss `t`: nodes `w` such that both canonical pairs `(e.1, w)` and `(e.2, w)`
are edges of `t` (such `w` are in particular nodes of `t`). -/
def trussSupport (g : SGraph) (t : List (Nat × Nat)) (e : Nat × Nat) : Nat :=
  (g.nodes.filter (fun w => decide (canonPair e.1 w ∈ t ∧ canonPair e.2 w ∈ t))).length

/-! ## Basic lemmas about the ordered-set operations -/

theorem mem_insertSorted {x y : Nat} : ∀ {l : List Nat},
    y ∈ insertSorted x l ↔ y = x ∨ y ∈ l := by
  intro l
  induction l with
  | nil => simp [insertSorted]
  | cons z l ih =>
    by_cases h1 : x < z
    · simp [insertSorted, h1]
    · by_cases h2 : x = z
      · subst h2
        simp [insertSorted, h1]
      · simp only [insertSorted, if_neg h1, if_neg h2, List.mem_cons, ih]
        tauto

theorem pairwise_insertSorted {x : Nat} : ∀ {l : List Nat},
    l.Pairwise (· < ·) → (insertSorted x l).Pairwise (· < ·) := by
  intro l
  induction l with
  | nil => simp [insertSorted]
  | cons z l ih =>
    intro h
    rcases List.pairwise_cons.1 h with ⟨hz, hl⟩
    by_cases h1 : x < z
    · simp only [insertSorted, if_pos h1]
      refine List.pairwise_cons.2 ⟨?_, h⟩
      intro b hb
      rcases List.mem_cons.1 hb with rfl | hb
      · exact h1
      · exact lt_trans h1 (hz b hb)
    · by_cases h2 : x = z
      · simpa [insertSorted, h1, h2] using h
      · have hzx : z < x := by omega
        simp only [insertSorted, if_neg h1, if_neg h2]
        refine List.pairwise_cons.2 ⟨?_, ih hl⟩
        intro b hb
        rcases mem_insertSorted.1 hb with rfl | hb
        · exact hzx
        · exact hz b hb

theorem length_insertSorted_le {x : Nat} : ∀ {l : List Nat},
    (insertSorted x l).length ≤ l.length + 1 := by
  intro l
  induction l with
  | nil => simp [insertSorted]
  | cons z l ih =>
    by_cases h1 : x < z
    · simp [insertSorted, h1]
    · by_cases h2 : x = z
      · simp [insertSorted, h1, h2]
      · simp only [insertSorted, if_neg h1, if_neg h2, List.length_cons]
        omega

theorem mem_sortNat {y : Nat} : ∀ {l : List Nat}, y ∈ sortNat l ↔ y ∈ l := by
  intro l
  induction l with
  | nil => simp [sortNat]
  | cons z l ih =>
    simp only [sortNat, List.foldr_cons, mem_insertSorted, List.mem_cons]
    rw [show List.foldr insertSorted [] l = sortNat l from rfl] at *
    simp [ih]

theorem pairwise_sortNat : ∀ {l : List Nat}, (sortNat l).Pairwise (· < ·) := by
  intro l
  induction l with
  | nil => simp [sortNat]
  | cons z l ih => exact pairwise_insertSorted ih

theorem nodup_sortNat {l : List Nat} : (sortNat l).Nodup :=
  pairwise_sortNat.imp Nat.ne_of_lt

theorem length_sortNat_le : ∀ {l : List Nat}, (sortNat l).length ≤ l.length := by
  intro l
  induction l with
  | nil => simp [sortNat]
  | cons z l ih =>
    calc (sortNat (z :: l)).length ≤ (sortNat l).length + 1 := length_insertSorted_le
    _ ≤ l.length + 1 := by omega

/-! ## Concrete evaluations settling the cross-validation and scenario claims -/

/-- C1: refuted on the code — on the triangle 1–2–3 plus the isolated node 4,
`get_coreness()` returns a map with no entry for node 4 (node 4 is removed in
the very first peel and never appears in any recorded component), while
`get_coreness_fast()` maps node 4 to 0: the two maps do not have the same key
set.  (The source itself marks the naive peeling as buggy.) -/
theorem coreness_vs_fast_disagree_c1 :
    (getCoreness gTri4).2 4 = none ∧ (getCorenessFast gTri4).2 4 = some 0 ∧
    (getCoreness gTri4).2 1 = some 2 ∧ (getCorenessFast gTri4).2 1 = some 2 := by
  decide

/-- C2: refuted on the code — `get_k_trusses(1)` performs no input
validation: the `usize` subtractions wrap (`1 - 2` becomes `2^64 - 1`), every
edge of the triangle fails the huge support threshold, and the call returns
the ordinary value `([], ∅)` instead of rejecting `k < 2`. -/
theorem k_trusses_no_validation_c2 :
    getKTrusses gT3 1 = ([], ∅) ∧ wsub 1 2 = 2 ^ 64 - 1 ∧ wsub 1 1 = 0 := by
  decide

/-- C8 counterexample: on the triangle-plus-isolated-node scenario the
coreness map returned by `get_coreness()` does not assign coreness 0 to
node 4 — it has no entry for node 4 at all. -/
theorem coreness_triangle_c8_counterexample :
    (getCoreness gTri4).2 4 ≠ some 0 ∧ (getCoreness gTri4).2 4 = none := by
  decide

/-- C8 (amended): on the triangle 1–2–3 plus isolated node 4, `get_coreness()`
assigns coreness 2 to nodes 1, 2 and 3, and has no entry for node 4. -/
theorem coreness_triangle_c8 :
    (getCoreness gTri4).2 1 = some 2 ∧ (getCoreness gTri4).2 2 = some 2 ∧
    (getCoreness gTri4).2 3 = some 2 ∧ (getCoreness gTri4).2 4 = none := by
  decide

/-- C9 counterexample: `_averaged_ties_ranking` is not deterministic across
runs when scores tie — the two hash-iteration orders of the same two-entry
score map `{1 ↦ 5, 2 ↦ 5}` yield different rank maps. -/
theorem ranking_tie_order_dependent_c9_counterexample :
    [(1, 5), (2, 5)].Perm [(2, 5), (1, 5)] ∧
    averagedTiesRanking [(1, 5), (2, 5)] 1 = some 1 ∧
    averagedTiesRanking [(2, 5), (1, 5)] 1 = some 2 := by
  refine ⟨?_, by decide, by decide⟩
  exact List.Perm.swap (2, 5) (1, 5) []

/-! ## Fast coreness: monotone decrease and degree bound (C6) -/

theorem fastNbrStep_coreness_le (nodeId : Nat) (st : FastState) (nbrId v : Nat) :
    (fastNbrStep nodeId st nbrId).coreness v ≤ st.coreness v := by
  unfold fastNbrStep
  dsimp only
  split
  · dsimp only
    split
    · omega
    · exact le_refl _
  · exact le_refl _

theorem foldl_fastNbrStep_coreness_le (nodeId : Nat) (v : Nat) :
    ∀ (l : List Nat) (st : FastState),
      ((l.foldl (fastNbrStep nodeId) st).coreness v) ≤ st.coreness v := by
  intro l
  induction l with
  | nil => intro st; exact le_refl _
  | cons b l ih =>
    intro st
    calc ((b :: l).foldl (fastNbrStep nodeId) st).coreness v
        = ((l.foldl (fastNbrStep nodeId) (fastNbrStep nodeId st b)).coreness v) := rfl
      _ ≤ (fastNbrStep nodeId st b).coreness v := ih _
      _ ≤ st.coreness v := fastNbrStep_coreness_le _ _ _ _

theorem fastOuterStep_coreness_le (st : FastState) (i v : Nat) :
    (fastOuterStep st i).coreness v ≤ st.coreness v :=
  foldl_fastNbrStep_coreness_le _ _ _ _

theorem foldl_fastOuterStep_coreness_le (v : Nat) :
    ∀ (l : List Nat) (st : FastState),
      ((l.foldl fastOuterStep st).coreness v) ≤ st.coreness v := by
  intro l
  induction l with
  | nil => intro st; exact le_refl _
  | cons i l ih =>
    intro st
    calc ((i :: l).foldl fastOuterStep st).coreness v
        = ((l.foldl fastOuterStep (fastOuterStep st i)).coreness v) := rfl
      _ ≤ (fastOuterStep st i).coreness v := ih _
      _ ≤ st.coreness v := fastOuterStep_coreness_le _ _ _

/-- C6: coreness values from `get_coreness_fast` are bounded by the original
degree (and, being `Nat`-valued counts, are at least 0); at every inner step
of the algorithm a node's coreness estimate can only decrease; and the
decrement of a neighbor's estimate is applied only when that estimate is
strictly positive, so the `usize` subtraction at the end of the neighbor loop
never underflows (the third conjunct states exact cancellation, which fails
in `Nat` precisely when a decrement of 0 is truncated). -/
theorem fast_coreness_bounds_c6 (g : SGraph) :
    (∀ v c, (getCorenessFast g).2 v = some c → c ≤ deg g v) ∧
    (∀ nodeId st nbrId v, (fastNbrStep nodeId st nbrId).coreness v ≤ st.coreness v) ∧
    (∀ nodeId st nbrId,
      (fastNbrStep nodeId st nbrId).coreness nbrId +
        (if st.coreness nodeId < st.coreness nbrId then 1 else 0) = st.coreness nbrId) := by
  refine ⟨?_, fun nodeId st nbrId v => fastNbrStep_coreness_le _ _ _ _, ?_⟩
  · intro v c hc
    unfold getCorenessFast at hc
    dsimp only at hc
    by_cases hv : v ∈ g.nodes
    · rw [if_pos hv] at hc
      have hle := foldl_fastOuterStep_coreness_le v (List.range (fastInit g).nodes.length) (fastInit g)
      have hinit : (fastInit g).coreness v = deg g v := rfl
      have : c = ((List.range (fastInit g).nodes.length).foldl fastOuterStep (fastInit g)).coreness v := by
        exact (Option.some.injEq _ _ ▸ hc).symm
      omega
    · rw [if_neg hv] at hc
      exact absurd hc (by simp)
  · intro nodeId st nbrId
    unfold fastNbrStep
    dsimp only
    by_cases h : st.coreness nodeId < st.coreness nbrId
    · rw [if_pos h]
      dsimp only
      rw [if_pos rfl, if_pos h]
      omega
    · rw [if_neg h, if_neg h]
      omega

/-! ## `_averaged_ties_ranking`: rank characterization (C9, C10) -/

theorem rank_fold_spec :
    ∀ (l : List (Nat × Nat)), (l.map Prod.fst).Nodup →
      ∀ (start : Nat) (m0 : Nat → Option Nat) (u : Nat),
        ((l.enumFrom start).foldl
          (fun m p => fun v => if v = p.2.1 then some (p.1 + 1) else m v) m0) u =
        if u ∈ l.map Prod.fst then
          some (start + l.findIdx (fun p => decide (p.1 = u)) + 1)
        else m0 u := by
  intro l
  induction l with
  | nil => intro _ start m0 u; simp
  | cons a t ih =>
    intro hk start m0 u
    have hk' : (a.1 :: t.map Prod.fst).Nodup := by simpa using hk
    have hk1 : a.1 ∉ t.map Prod.fst := (List.nodup_cons.1 hk').1
    have hkt : (t.map Prod.fst).Nodup := (List.nodup_cons.1 hk').2
    have hstep : ((a :: t).enumFrom start).foldl
        (fun m p => fun v => if v = p.2.1 then some (p.1 + 1) else m v) m0 =
        (t.enumFrom (start + 1)).foldl
          (fun m p => fun v => if v = p.2.1 then some (p.1 + 1) else m v)
          (fun v => if v = a.1 then some (start + 1) else m0 v) := rfl
    rw [hstep, ih hkt (start + 1) _ u]
    by_cases hu : u = a.1
    · have hnot : u ∉ t.map Prod.fst := hu ▸ hk1
      have hmemc : u ∈ (a :: t).map Prod.fst := by
        simp [List.map_cons, hu]
      have hfi : List.findIdx (fun p => decide (p.1 = u)) (a :: t) = 0 := by
        rw [List.findIdx_cons]
        have : decide (a.1 = u) = true := by simp [hu]
        rw [this]
        rfl
      rw [if_neg hnot, if_pos hmemc, if_pos hu, hfi]
    · have hfi : List.findIdx (fun p => decide (p.1 = u)) (a :: t) =
          List.findIdx (fun p => decide (p.1 = u)) t + 1 := by
        rw [List.findIdx_cons]
        have : (decide (a.1 = u)) = false := by
          simp only [decide_eq_false_iff_not]
          exact fun h => hu h.symm
        rw [this]
        rfl
      by_cases hmem : u ∈ t.map Prod.fst
      · have hmemc : u ∈ (a :: t).map Prod.fst := by simp [List.map_cons, hmem]
        rw [if_pos hmem, if_pos hmemc, hfi]
        norm_num
        omega
      · have hnc : u ∉ (a :: t).map Prod.fst := by
          simp only [List.map_cons, List.mem_cons]
          push_neg
          exact ⟨hu, by simpa using hmem⟩
        rw [if_neg hmem, if_neg hnc, if_neg hu]

theorem sorted_perm_eq_of_nodup_values :
    ∀ (l1 l2 : List (Nat × Nat)), l1.Perm l2 →
      l1.Pairwise (fun a b => b.2 ≤ a.2) → l2.Pairwise (fun a b => b.2 ≤ a.2) →
      (l1.map Prod.snd).Nodup → l1 = l2 := by
  intro l1
  induction l1 with
  | nil =>
    intro l2 hperm _ _ _
    exact (List.perm_nil.mp hperm.symm).symm
  | cons a t1 ih =>
    intro l2 hperm h1 h2 hnd
    match l2 with
    | [] => exact absurd hperm.symm (by simp)
    | b :: t2 =>
      by_cases hab : a = b
      · subst hab
        have := ih t2 hperm.cons_inv (List.pairwise_cons.1 h1).2 (List.pairwise_cons.1 h2).2
          (by simpa using (List.nodup_cons.1 (by simpa using hnd)).2)
        rw [this]
      · have ha2 : a ∈ t2 := by
          have := hperm.mem_iff.1 (List.mem_cons_self a t1)
          rcases List.mem_cons.1 this with h | h
          · exact absurd h hab
          · exact h
        have hb1 : b ∈ t1 := by
          have := hperm.mem_iff.2 (List.mem_cons_self b t2)
          rcases List.mem_cons.1 this with h | h
          · exact absurd h.symm hab
          · exact h
        have hba : a.2 ≤ b.2 := (List.pairwise_cons.1 h2).1 a ha2
        have hab2 : b.2 ≤ a.2 := (List.pairwise_cons.1 h1).1 b hb1
        have heq : a.2 = b.2 := le_antisymm hba hab2
        exfalso
        have : a.2 ∉ t1.map Prod.snd := (List.nodup_cons.1 (by simpa using hnd)).1
        exact this (heq ▸ List.mem_map_of_mem Prod.snd hb1)

/-- C9 (amended): `_averaged_ties_ranking` is deterministic whenever no two
entries have tied score values: any two hash-iteration orders of the same
score map produce the same rank map.  (With ties the output depends on the
iteration order — see the counterexample theorem.) -/
theorem ranking_order_independent_c9 (l1 l2 : List (Nat × Nat))
    (hperm : l1.Perm l2) (hvals : (l1.map Prod.snd).Nodup) :
    averagedTiesRanking l1 = averagedTiesRanking l2 := by
  haveI : IsTotal (Nat × Nat) (fun a b => b.2 ≤ a.2) := ⟨fun a b => Nat.le_total b.2 a.2⟩
  haveI : IsTrans (Nat × Nat) (fun a b => b.2 ≤ a.2) :=
    ⟨fun a b c hab hbc => le_trans hbc hab⟩
  have hs1 := List.sorted_insertionSort (fun a b : Nat × Nat => b.2 ≤ a.2) l1
  have hs2 := List.sorted_insertionSort (fun a b : Nat × Nat => b.2 ≤ a.2) l2
  have hp : (List.insertionSort (fun a b : Nat × Nat => b.2 ≤ a.2) l1).Perm
      (List.insertionSort (fun a b : Nat × Nat => b.2 ≤ a.2) l2) :=
    ((List.perm_insertionSort _ l1).trans hperm).trans (List.perm_insertionSort _ l2).symm
  have hnd : ((List.insertionSort (fun a b : Nat × Nat => b.2 ≤ a.2) l1).map Prod.snd).Nodup := by
    exact (((List.perm_insertionSort _ l1).map Prod.snd).nodup_iff).2 hvals
  have heq := sorted_perm_eq_of_nodup_values _ _ hp hs1 hs2 hnd
  unfold averagedTiesRanking
  rw [heq]

/-- Closed instance of the amended C9 determinism theorem at a concrete
tie-free score map presented in two iteration orders. -/
theorem ranking_order_independent_c9_witness :
    averagedTiesRanking [(1, 5), (2, 3)] = averagedTiesRanking [(2, 3), (1, 5)] :=
  ranking_order_independent_c9 [(1, 5), (2, 3)] [(2, 3), (1, 5)]
    (List.Perm.swap (2, 3) (1, 5) []) (by decide)

theorem ranking_spec (scores : List (Nat × Nat))
    (hkeys : (scores.map Prod.fst).Nodup) (u : Nat) :
    averagedTiesRanking scores u =
      (if u ∈ (List.insertionSort (fun a b => b.2 ≤ a.2) scores).map Prod.fst then
        some ((List.insertionSort (fun a b => b.2 ≤ a.2) scores).findIdx
          (fun p => decide (p.1 = u)) + 1)
      else none) := by
  have hknd : ((List.insertionSort (fun a b : Nat × Nat => b.2 ≤ a.2) scores).map Prod.fst).Nodup :=
    (((List.perm_insertionSort _ scores).map Prod.fst).nodup_iff).2 hkeys
  have := rank_fold_spec (List.insertionSort (fun a b : Nat × Nat => b.2 ≤ a.2) scores) hknd
    0 (fun _ => none) u
  unfold averagedTiesRanking
  rw [show (List.insertionSort (fun a b : Nat × Nat => b.2 ≤ a.2) scores).enum =
      (List.insertionSort (fun a b : Nat × Nat => b.2 ≤ a.2) scores).enumFrom 0 from rfl]
  rw [this]
  simp

theorem sorted_findIdx_self (s : List (Nat × Nat)) (hknd : (s.map Prod.fst).Nodup)
    (i : Nat) (hi : i < s.length) :
    s.findIdx (fun p => decide (p.1 = (s.get ⟨i, hi⟩).1)) = i := by
  rw [List.findIdx_eq hi]
  constructor
  · simp
  · intro j hji
    simp only [decide_eq_false_iff_not]
    intro hj
    have hjlt : j < s.length := lt_trans hji hi
    have := List.inj_on_of_nodup_map hknd (List.getElem_mem hjlt) (List.getElem_mem hi) hj
    have : j = i := by
      have hnd : s.Nodup := hknd.of_map
      exact List.Nodup.getElem_inj_iff hnd |>.1 (by simpa using this)
    omega

theorem sorted_idx_lt_of_score_gt (s : List (Nat × Nat))
    (hsorted : s.Pairwise (fun a b => b.2 ≤ a.2))
    (u v su sv iu iv : Nat) (hiul : iu < s.length) (hivl : iv < s.length)
    (huval : s.get ⟨iu, hiul⟩ = (u, su)) (hvval : s.get ⟨iv, hivl⟩ = (v, sv))
    (hlt : sv < su) : iu < iv := by
  rcases lt_trichotomy iu iv with h | h | h
  · exact h
  · exfalso
    have heqp : (u, su) = (v, sv) := by
      rw [← huval, ← hvval]
      congr 1
      exact Fin.mk_eq_mk.mpr h
    have hsusv : su = sv := by simpa using congrArg Prod.snd heqp
    omega
  · exfalso
    have := (List.pairwise_iff_getElem.1 hsorted) iv iu hivl hiul h
    have hle : (s.get ⟨iu, hiul⟩).2 ≤ (s.get ⟨iv, hivl⟩).2 := by simpa using this
    rw [huval, hvval] at hle
    simp at hle
    omega

/-- C10: for every score map (keys distinct, as for a `HashMap`) presented in
any iteration order, `_averaged_ties_ranking` assigns the nodes exactly the
ranks 1, 2, …, N (a bijection from the N keys onto `1..N`), a node with
strictly greater score always gets a strictly smaller rank, and every
assigned rank is at least 1 — so `get_coreness_anomaly`, which takes `ln` of
exactly these rank values, only ever takes logarithms of values ≥ 1. -/
theorem ranking_bijection_c10 (scores : List (Nat × Nat))
    (hkeys : (scores.map Prod.fst).Nodup) :
    ((scores.map Prod.fst).map (averagedTiesRanking scores)).Perm
      ((List.range scores.length).map (fun i => some (i + 1))) ∧
    (∀ u ru, averagedTiesRanking scores u = some ru → 1 ≤ ru ∧ ru ≤ scores.length) ∧
    (∀ u v su sv ru rv, (u, su) ∈ scores → (v, sv) ∈ scores →
      averagedTiesRanking scores u = some ru →
      averagedTiesRanking scores v = some rv → sv < su → ru < rv) := by
  haveI : IsTotal (Nat × Nat) (fun a b => b.2 ≤ a.2) := ⟨fun a b => Nat.le_total b.2 a.2⟩
  haveI : IsTrans (Nat × Nat) (fun a b => b.2 ≤ a.2) :=
    ⟨fun a b c hab hbc => le_trans hbc hab⟩
  set s := List.insertionSort (fun a b : Nat × Nat => b.2 ≤ a.2) scores with hs
  have hsp : s.Perm scores := List.perm_insertionSort _ scores
  have hknd : (s.map Prod.fst).Nodup := ((hsp.map Prod.fst).nodup_iff).2 hkeys
  have hlen : s.length = scores.length := hsp.length_eq
  have hsorted : s.Pairwise (fun a b : Nat × Nat => b.2 ≤ a.2) :=
    List.sorted_insertionSort (fun a b : Nat × Nat => b.2 ≤ a.2) scores
  have hchar := ranking_spec scores hkeys
  refine ⟨?_, ?_, ?_⟩
  · -- bijection onto the ranks 1..N
    have hmap : (s.map Prod.fst).map (averagedTiesRanking scores) =
        (List.range scores.length).map (fun i => some (i + 1)) := by
      apply List.ext_getElem
      · simp [hlen]
      · intro n h1 h2
        have hn : n < s.length := by simpa [hlen] using h2
        have hkey : ((s.map Prod.fst).map (averagedTiesRanking scores))[n] =
            averagedTiesRanking scores (s.get ⟨n, hn⟩).1 := by
          simp [List.getElem_map]
        rw [hkey, hchar]
        have hmem : (s.get ⟨n, hn⟩).1 ∈ s.map Prod.fst := by
          exact List.mem_map_of_mem Prod.fst (List.getElem_mem hn)
        rw [if_pos hmem, sorted_findIdx_self s hknd n hn]
        simp [List.getElem_range]
    have hperm1 : ((scores.map Prod.fst).map (averagedTiesRanking scores)).Perm
        ((s.map Prod.fst).map (averagedTiesRanking scores)) :=
      ((hsp.map Prod.fst).map (averagedTiesRanking scores)).symm
    exact hmap ▸ hperm1
  · -- every rank is between 1 and N
    intro u ru hru
    rw [hchar u] at hru
    by_cases hmem : u ∈ s.map Prod.fst
    · rw [if_pos hmem] at hru
      have hfi : s.findIdx (fun p => decide (p.1 = u)) < s.length :=
        List.findIdx_lt_length_of_exists (by
          rcases List.mem_map.1 hmem with ⟨p, hp, hpu⟩
          exact ⟨p, hp, by simp [hpu]⟩)
      have : ru = s.findIdx (fun p => decide (p.1 = u)) + 1 := by
        exact (Option.some.injEq _ _ ▸ hru).symm
      omega
    · rw [if_neg hmem] at hru
      exact absurd hru (by simp)
  · -- strictly greater score gives strictly smaller rank
    intro u v su sv ru rv humem hvmem hru hrv hlt
    rw [hchar u] at hru
    rw [hchar v] at hrv
    by_cases hum : u ∈ s.map Prod.fst
    · by_cases hvm : v ∈ s.map Prod.fst
      · rw [if_pos hum] at hru
        rw [if_pos hvm] at hrv
        set iu := s.findIdx (fun p => decide (p.1 = u)) with hiu
        set iv := s.findIdx (fun p => decide (p.1 = v)) with hiv
        have hruv : ru = iu + 1 := (Option.some.injEq _ _ ▸ hru).symm
        have hrvv : rv = iv + 1 := (Option.some.injEq _ _ ▸ hrv).symm
        have hiul : iu < s.length :=
          List.findIdx_lt_length_of_exists (by
            rcases List.mem_map.1 hum with ⟨p, hp, hpu⟩
            exact ⟨p, hp, by simp [hpu]⟩)
        have hivl : iv < s.length :=
          List.findIdx_lt_length_of_exists (by
            rcases List.mem_map.1 hvm with ⟨p, hp, hpv⟩
            exact ⟨p, hp, by simp [hpv]⟩)
        have hukey : (s.get ⟨iu, hiul⟩).1 = u := by
          have := @List.findIdx_getElem _ (fun p => decide (p.1 = u)) s hiul
          simpa using this
        have hvkey : (s.get ⟨iv, hivl⟩).1 = v := by
          have := @List.findIdx_getElem _ (fun p => decide (p.1 = v)) s hivl
          simpa using this
        have husmem : (u, su) ∈ s := hsp.mem_iff.2 humem
        have hvsmem : (v, sv) ∈ s := hsp.mem_iff.2 hvmem
        have huval : (s.get ⟨iu, hiul⟩) = (u, su) :=
          List.inj_on_of_nodup_map hknd (List.getElem_mem hiul) husmem (by simpa using hukey)
        have hvval : (s.get ⟨iv, hivl⟩) = (v, sv) :=
          List.inj_on_of_nodup_map hknd (List.getElem_mem hivl) hvsmem (by simpa using hvkey)
        have h := sorted_idx_lt_of_score_gt s hsorted u v su sv iu iv hiul hivl huval hvval hlt
        rw [hruv, hrvv]
        exact Nat.add_lt_add_right h 1
      · rw [if_neg hvm] at hrv
        exact absurd hrv (by simp)
    · rw [if_neg hum] at hru
      exact absurd hru (by simp)

/-- Closed instance of the C10 ranking theorem at a concrete two-entry score
map. -/
theorem ranking_bijection_c10_witness :
    ((([(1, 5), (2, 3)] : List (Nat × Nat)).map Prod.fst).map
        (averagedTiesRanking [(1, 5), (2, 3)])).Perm
      ((List.range ([(1, 5), (2, 3)] : List (Nat × Nat)).length).map (fun i => some (i + 1))) ∧
    (∀ u ru, averagedTiesRanking [(1, 5), (2, 3)] u = some ru →
      1 ≤ ru ∧ ru ≤ ([(1, 5), (2, 3)] : List (Nat × Nat)).length) ∧
    (∀ u v su sv ru rv, (u, su) ∈ ([(1, 5), (2, 3)] : List (Nat × Nat)) →
      (v, sv) ∈ ([(1, 5), (2, 3)] : List (Nat × Nat)) →
      averagedTiesRanking [(1, 5), (2, 3)] u = some ru →
      averagedTiesRanking [(1, 5), (2, 3)] v = some rv → sv < su → ru < rv) :=
  ranking_bijection_c10 [(1, 5), (2, 3)] (by decide)

/-! ## Counting helpers for filtered lists -/

theorem filter_length_mono {α : Type} (l : List α) (p q : α → Bool)
    (h : ∀ x ∈ l, p x = true → q x = true) :
    (l.filter p).length ≤ (l.filter q).length := by
  induction l with
  | nil => simp
  | cons x t ih =>
    have ht := ih (fun y hy hp => h y (List.mem_cons_of_mem x hy) hp)
    by_cases hpx : p x = true
    · have hqx := h x (List.mem_cons_self x t) hpx
      simp [List.filter_cons, hpx, hqx]
      omega
    · have hpx' : p x = false := by simpa using hpx
      by_cases hqx : q x = true
      · simp [List.filter_cons, hpx', hqx]
        omega
      · have hqx' : q x = false := by simpa using hqx
        simp [List.filter_cons, hpx', hqx']
        exact ht

theorem filter_length_lt {α : Type} (l : List α) (p q : α → Bool) (a : α)
    (ha : a ∈ l) (hq : q a = true) (hp : p a = false)
    (h : ∀ x ∈ l, p x = true → q x = true) :
    (l.filter p).length < (l.filter q).length := by
  induction l with
  | nil => simp at ha
  | cons x t ih =>
    have hmono := filter_length_mono t p q (fun y hy hpy => h y (List.mem_cons_of_mem x hy) hpy)
    by_cases hxa : x = a
    · subst hxa
      simp [List.filter_cons, hp, hq]
      omega
    · have hat : a ∈ t := by
        rcases List.mem_cons.1 ha with h' | h'
        · exact absurd h'.symm hxa
        · exact h'
      have iht := ih hat (fun y hy hpy => h y (List.mem_cons_of_mem x hy) hpy)
      by_cases hpx : p x = true
      · have hqx := h x (List.mem_cons_self x t) hpx
        simp [List.filter_cons, hpx, hqx]
        omega
      · have hpx' : p x = false := by simpa using hpx
        by_cases hqx : q x = true
        · simp [List.filter_cons, hpx', hqx]
          omega
        · have hqx' : q x = false := by simpa using hqx
          simp [List.filter_cons, hpx', hqx']
          exact iht

theorem filter_length_split {α : Type} (l : List α) (p : α → Bool) :
    (l.filter p).length + (l.filter (fun x => !(p x))).length = l.length := by
  induction l with
  | nil => simp
  | cons x t ih =>
    by_cases hpx : p x = true
    · simp [List.filter_cons, hpx]
      omega
    · have hpx' : p x = false := by simpa using hpx
      simp [List.filter_cons, hpx']
      omega

/-! ## The `_get_k_cores` edge-loop fold -/

theorem kc_fold_queue_mem (id : Nat) (removed : Finset Nat) (x : Nat) :
    ∀ (l : List Nat) (q0 : List Nat) (f0 : Nat → Int),
      (x ∈ (l.foldl (kCoresEdgeStep id removed) (q0, f0)).1 ↔
        x ∈ q0 ∨ (x ∈ l ∧ x ∉ removed)) := by
  intro l
  induction l with
  | nil => intro q0 f0; simp
  | cons a t ih =>
    intro q0 f0
    by_cases ha : a ∈ removed
    · have hstep : kCoresEdgeStep id removed (q0, f0) a = (q0, f0) := by
        simp [kCoresEdgeStep, ha]
      rw [List.foldl_cons, hstep, ih]
      constructor
      · rintro (h | ⟨h1, h2⟩)
        · exact Or.inl h
        · exact Or.inr ⟨List.mem_cons_of_mem a h1, h2⟩
      · rintro (h | ⟨h1, h2⟩)
        · exact Or.inl h
        · rcases List.mem_cons.1 h1 with rfl | h1
          · exact absurd ha h2
          · exact Or.inr ⟨h1, h2⟩
    · have hstep : kCoresEdgeStep id removed (q0, f0) a =
          (insertSorted a q0, decAt (decAt f0 id) a) := by
        simp [kCoresEdgeStep, ha]
      rw [List.foldl_cons, hstep, ih]
      rw [mem_insertSorted]
      constructor
      · rintro ((rfl | h) | ⟨h1, h2⟩)
        · exact Or.inr ⟨List.mem_cons_self x t, ha⟩
        · exact Or.inl h
        · exact Or.inr ⟨List.mem_cons_of_mem a h1, h2⟩
      · rintro (h | ⟨h1, h2⟩)
        · exact Or.inl (Or.inr h)
        · rcases List.mem_cons.1 h1 with rfl | h1
          · exact Or.inl (Or.inl rfl)
          · exact Or.inr ⟨h1, h2⟩

theorem kc_fold_queue_sorted (id : Nat) (removed : Finset Nat) :
    ∀ (l : List Nat) (q0 : List Nat) (f0 : Nat → Int),
      q0.Pairwise (· < ·) →
      ((l.foldl (kCoresEdgeStep id removed) (q0, f0)).1).Pairwise (· < ·) := by
  intro l
  induction l with
  | nil => intro q0 f0 h; exact h
  | cons a t ih =>
    intro q0 f0 h
    by_cases ha : a ∈ removed
    · have hstep : kCoresEdgeStep id removed (q0, f0) a = (q0, f0) := by
        simp [kCoresEdgeStep, ha]
      rw [List.foldl_cons, hstep]
      exact ih q0 f0 h
    · have hstep : kCoresEdgeStep id removed (q0, f0) a =
          (insertSorted a q0, decAt (decAt f0 id) a) := by
        simp [kCoresEdgeStep, ha]
      rw [List.foldl_cons, hstep]
      exact ih _ _ (pairwise_insertSorted h)

theorem kc_fold_queue_len (id : Nat) (removed : Finset Nat) :
    ∀ (l : List Nat) (q0 : List Nat) (f0 : Nat → Int),
      ((l.foldl (kCoresEdgeStep id removed) (q0, f0)).1).length ≤ q0.length + l.length := by
  intro l
  induction l with
  | nil => intro q0 f0; simp
  | cons a t ih =>
    intro q0 f0
    by_cases ha : a ∈ removed
    · have hstep : kCoresEdgeStep id removed (q0, f0) a = (q0, f0) := by
        simp [kCoresEdgeStep, ha]
      rw [List.foldl_cons, hstep]
      have := ih q0 f0
      simpa using by omega
    · have hstep : kCoresEdgeStep id removed (q0, f0) a =
          (insertSorted a q0, decAt (decAt f0 id) a) := by
        simp [kCoresEdgeStep, ha]
      rw [List.foldl_cons, hstep]
      have h1 := ih (insertSorted a q0) (decAt (decAt f0 id) a)
      have h2 : (insertSorted a q0).length ≤ q0.length + 1 := length_insertSorted_le
      simp only [List.length_cons]
      omega

theorem kc_fold_num (id : Nat) (removed : Finset Nat) :
    ∀ (l : List Nat), l.Nodup → id ∉ l →
      ∀ (q0 : List Nat) (f0 : Nat → Int),
        ((l.foldl (kCoresEdgeStep id removed) (q0, f0)).2 id =
          f0 id - ((l.filter (fun w => decide (w ∉ removed))).length : Int)) ∧
        (∀ v, v ≠ id → v ∈ l → v ∉ removed →
          (l.foldl (kCoresEdgeStep id removed) (q0, f0)).2 v = f0 v - 1) ∧
        (∀ v, v ≠ id → (v ∈ removed ∨ v ∉ l) →
          (l.foldl (kCoresEdgeStep id removed) (q0, f0)).2 v = f0 v) := by
  intro l
  induction l with
  | nil =>
    intro _ _ q0 f0
    refine ⟨by simp, ?_, ?_⟩
    · intro v _ hv; simp at hv
    · intro v _ _; rfl
  | cons a t ih =>
    intro hnd hidl q0 f0
    have hat : a ∉ t := (List.nodup_cons.1 hnd).1
    have htnd : t.Nodup := (List.nodup_cons.1 hnd).2
    have hida : id ≠ a := fun h => hidl (h ▸ List.mem_cons_self a t)
    have hidt : id ∉ t := fun h => hidl (List.mem_cons_of_mem a h)
    by_cases ha : a ∈ removed
    · have hstep : kCoresEdgeStep id removed (q0, f0) a = (q0, f0) := by
        simp [kCoresEdgeStep, ha]
      rw [List.foldl_cons, hstep]
      obtain ⟨ih1, ih2, ih3⟩ := ih htnd hidt q0 f0
      refine ⟨?_, ?_, ?_⟩
      · have hfa : (a :: t).filter (fun w => decide (w ∉ removed)) =
            t.filter (fun w => decide (w ∉ removed)) := by
          simp [List.filter_cons, ha]
        rw [hfa]
        exact ih1
      · intro v hvid hv hvr
        rcases List.mem_cons.1 hv with rfl | hv
        · exact absurd ha hvr
        · exact ih2 v hvid hv hvr
      · intro v hvid hcase
        refine ih3 v hvid ?_
        rcases hcase with h | h
        · exact Or.inl h
        · exact Or.inr (fun hv => h (List.mem_cons_of_mem a hv))
    · have hstep : kCoresEdgeStep id removed (q0, f0) a =
          (insertSorted a q0, decAt (decAt f0 id) a) := by
        simp [kCoresEdgeStep, ha]
      rw [List.foldl_cons, hstep]
      obtain ⟨ih1, ih2, ih3⟩ := ih htnd hidt (insertSorted a q0) (decAt (decAt f0 id) a)
      have hf1id : decAt (decAt f0 id) a id = f0 id - 1 := by
        simp [decAt, hida, (show id ≠ a from hida)]
      have hf1a : decAt (decAt f0 id) a a = f0 a - 1 := by
        simp [decAt, (show a ≠ id from fun h => hida h.symm)]
      have hf1other : ∀ v, v ≠ id → v ≠ a → decAt (decAt f0 id) a v = f0 v := by
        intro v h1 h2
        simp [decAt, h1, h2]
      refine ⟨?_, ?_, ?_⟩
      · have hfa : (a :: t).filter (fun w => decide (w ∉ removed)) =
            a :: t.filter (fun w => decide (w ∉ removed)) := by
          simp [List.filter_cons, ha]
        rw [hfa, ih1, hf1id]
        simp only [List.length_cons]
        push_cast
        ring
      · intro v hvid hv hvr
        rcases List.mem_cons.1 hv with rfl | hv
        · rw [ih3 v hvid (Or.inr hat), hf1a]
        · rw [ih2 v hvid hv hvr]
          rw [hf1other v hvid (fun h => hat (h ▸ hv))]
      · intro v hvid hcase
        have hva : v ≠ a := by
          rintro rfl
          rcases hcase with h | h
          · exact ha h
          · exact h (List.mem_cons_self v t)
        have : v ∈ removed ∨ v ∉ t := by
          rcases hcase with h | h
          · exact Or.inl h
          · exact Or.inr (fun hv => h (List.mem_cons_of_mem a hv))
        rw [ih3 v hvid this, hf1other v hvid hva]

/-! ## The `_get_k_cores` loop invariant -/

theorem kCInv_init (g : SGraph) (R0 : Finset Nat) : KCInv g (kCoresInit g R0) := by
  refine ⟨pairwise_sortNat, ?_, ?_, ?_⟩
  · intro v hv
    exact mem_sortNat.1 hv
  · intro v _
    have : (phantomCount g (kCoresInit g R0) v : Int) ≥ 0 := by positivity
    show (deg g v : Int) - (phantomCount g (kCoresInit g R0) v : Int) ≤ (deg g v : Int)
    omega
  · intro v _ _
    rfl

theorem kCInv_step (g : SGraph) (k : Nat) (st : KCState) (hwf : WF g) (h : KCInv g st) :
    KCInv g (kCoresStep g k st) := by
  obtain ⟨h1, h2, h3, h4⟩ := h
  cases hq : st.queue with
  | nil =>
    have : kCoresStep g k st = st := by
      unfold kCoresStep
      rw [hq]
    rw [this]
    exact ⟨h1, h2, h3, h4⟩
  | cons id rest =>
    have hidq : id ∈ st.queue := by rw [hq]; exact List.mem_cons_self id rest
    have hrestq : ∀ y ∈ rest, y ∈ st.queue := by
      intro y hy; rw [hq]; exact List.mem_cons_of_mem id hy
    have hidn : id ∈ g.nodes := h2 id hidq
    have hpair : (id :: rest).Pairwise (· < ·) := hq ▸ h1
    have hidlt : ∀ y ∈ rest, id < y := (List.pairwise_cons.1 hpair).1
    have hrest_sorted : rest.Pairwise (· < ·) := (List.pairwise_cons.1 hpair).2
    have hidrest : id ∉ rest := fun hm => lt_irrefl id (hidlt id hm)
    obtain ⟨hadjnd, hself, hcl⟩ := hwf.2 id hidn
    by_cases hlt : st.num id < (k : Int)
    · -- removal branch
      have hstep : kCoresStep g k st =
          ⟨((g.adj id).foldl (kCoresEdgeStep id (insert id st.removed)) (rest, st.num)).1,
           insert id st.removed,
           ((g.adj id).foldl (kCoresEdgeStep id (insert id st.removed)) (rest, st.num)).2⟩ := by
        unfold kCoresStep
        rw [hq]
        simp only [hlt, if_pos]
      rw [hstep]
      set removedN := insert id st.removed with hremN
      set p := (g.adj id).foldl (kCoresEdgeStep id removedN) (rest, st.num) with hp
      have hmemq : ∀ x, x ∈ p.1 ↔ x ∈ rest ∨ (x ∈ g.adj id ∧ x ∉ removedN) := by
        intro x
        exact kc_fold_queue_mem id removedN x (g.adj id) rest st.num
      obtain ⟨hfold1, hfold2, hfold3⟩ :=
        kc_fold_num id removedN (g.adj id) hadjnd hself rest st.num
      have hidnotq : id ∉ p.1 := by
        rw [hmemq]
        rintro (hm | ⟨hm, _⟩)
        · exact hidrest hm
        · exact hself hm
      refine ⟨?_, ?_, ?_, ?_⟩
      · exact kc_fold_queue_sorted id removedN (g.adj id) rest st.num hrest_sorted
      · intro x hx
        rcases (hmemq x).1 hx with hm | ⟨hm, _⟩
        · exact h2 x (hrestq x hm)
        · exact (hcl x hm).1
      · -- the counter lower bound
        intro v hv
        have hvid : v ≠ id := by
          rintro rfl
          exact hv (Finset.mem_insert_self v st.removed)
        have hvold : v ∉ st.removed := fun hm => hv (Finset.mem_insert_of_mem hm)
        have hL := h3 v hvold
        have himp : ∀ u ∈ g.adj v,
            (fun u => decide (u ∈ st.removed ∧ u ∉ st.queue)) u = true →
            (fun u => decide (u ∈ removedN ∧ u ∉ p.1)) u = true := by
          intro u _ hu
          simp only [decide_eq_true_eq] at hu ⊢
          obtain ⟨hur, huq⟩ := hu
          refine ⟨Finset.mem_insert_of_mem hur, ?_⟩
          rw [hmemq]
          rintro (hm | ⟨_, hm2⟩)
          · exact huq (hrestq u hm)
          · exact hm2 (Finset.mem_insert_of_mem hur)
        have hphant : phantomCount g st v ≤
            phantomCount g ⟨p.1, removedN, p.2⟩ v := by
          unfold phantomCount
          exact filter_length_mono (g.adj v) _ _ himp
        by_cases hvadj : v ∈ g.adj id
        · obtain ⟨hvn, hidadjv⟩ := hcl v hvadj
          obtain ⟨hadjvnd, _, _⟩ := hwf.2 v hvn
          have hnum : p.2 v = st.num v - 1 := hfold2 v hvid hvadj hv
          have hlt2 : phantomCount g st v <
              phantomCount g ⟨p.1, removedN, p.2⟩ v := by
            unfold phantomCount
            refine filter_length_lt (g.adj v) _ _ id hidadjv ?_ ?_ himp
            · simp only [decide_eq_true_eq]
              exact ⟨Finset.mem_insert_self id st.removed, hidnotq⟩
            · simp only [decide_eq_false_iff_not]
              rintro ⟨_, hq2⟩
              exact hq2 hidq
          show (deg g v : Int) - (phantomCount g ⟨p.1, removedN, p.2⟩ v : Int) ≤ p.2 v
          rw [hnum]
          omega
        · have hnum : p.2 v = st.num v := hfold3 v hvid (Or.inr hvadj)
          show (deg g v : Int) - (phantomCount g ⟨p.1, removedN, p.2⟩ v : Int) ≤ p.2 v
          rw [hnum]
          omega
      · -- removed nodes still queued keep their initial counter
        intro v hvr hvq
        have hvrest : v ∈ rest := by
          rcases (hmemq v).1 hvq with hm | ⟨_, hm2⟩
          · exact hm
          · exact absurd hvr hm2
        have hvid : v ≠ id := fun hvi => hidrest (hvi ▸ hvrest)
        have hvold : v ∈ st.removed := by
          rcases Finset.mem_insert.1 hvr with hvi | hm
          · exact absurd hvi hvid
          · exact hm
        have hnum : p.2 v = st.num v := hfold3 v hvid (Or.inl hvr)
        show p.2 v = (deg g v : Int)
        rw [hnum]
        exact h4 v hvold (hrestq v hvrest)
    · -- no-removal branch
      have hstep : kCoresStep g k st = ⟨rest, st.removed, st.num⟩ := by
        unfold kCoresStep
        rw [hq]
        simp only [hlt, if_neg, ite_false]
      rw [hstep]
      refine ⟨hrest_sorted, fun v hv => h2 v (hrestq v hv), ?_, ?_⟩
      · intro v hv
        have himp : ∀ u ∈ g.adj v,
            (fun u => decide (u ∈ st.removed ∧ u ∉ st.queue)) u = true →
            (fun u => decide (u ∈ st.removed ∧ u ∉ rest)) u = true := by
          intro u _ hu
          simp only [decide_eq_true_eq] at hu ⊢
          exact ⟨hu.1, fun hm => hu.2 (hrestq u hm)⟩
        have hphant : phantomCount g st v ≤ phantomCount g ⟨rest, st.removed, st.num⟩ v := by
          unfold phantomCount
          exact filter_length_mono (g.adj v) _ _ himp
        have hL := h3 v hv
        show (deg g v : Int) - (phantomCount g ⟨rest, st.removed, st.num⟩ v : Int) ≤ st.num v
        omega
      · intro v hvr hvq
        exact h4 v hvr (hrestq v hvq)

theorem kCInv_run (g : SGraph) (k : Nat) (R0 : Finset Nat) (hwf : WF g) :
    ∀ n, KCInv g (kCoresRun g k R0 n) := by
  intro n
  induction n with
  | zero => exact kCInv_init g R0
  | succ n ih =>
    rw [kCoresRun, Function.iterate_succ_apply']
    exact kCInv_step g k _ hwf ih

theorem kc_phantom_le (g : SGraph) (st : KCState) (v : Nat) :
    liveDeg g st.removed v + phantomCount g st v ≤ deg g v := by
  have hsplit := filter_length_split (g.adj v) (fun w => decide (w ∉ st.removed))
  have hmono : phantomCount g st v ≤
      ((g.adj v).filter (fun w => !(decide (w ∉ st.removed)))).length := by
    unfold phantomCount
    refine filter_length_mono (g.adj v) _ _ ?_
    intro u _ hu
    simp only [decide_eq_true_eq] at hu
    simp only [Bool.not_eq_true', decide_eq_false_iff_not]
    intro hcon
    exact hcon hu.1
  have hlive : liveDeg g st.removed v =
      ((g.adj v).filter (fun w => decide (w ∉ st.removed))).length := rfl
  have hdeg : deg g v = (g.adj v).length := rfl
  omega

theorem kc_step_new_removed (g : SGraph) (k : Nat) (st : KCState) (v : Nat)
    (h : KCInv g st)
    (hv : v ∈ (kCoresStep g k st).removed) (hvn : v ∉ st.removed) :
    liveDeg g st.removed v < k := by
  obtain ⟨h1, h2, h3, h4⟩ := h
  cases hq : st.queue with
  | nil =>
    have : kCoresStep g k st = st := by
      unfold kCoresStep; rw [hq]
    rw [this] at hv
    exact absurd hv hvn
  | cons id rest =>
    by_cases hlt : st.num id < (k : Int)
    · have hstep : (kCoresStep g k st).removed = insert id st.removed := by
        unfold kCoresStep
        rw [hq]
        simp only [hlt, if_pos]
      rw [hstep] at hv
      rcases Finset.mem_insert.1 hv with rfl | hm
      · have hL := h3 v hvn
        have hb := kc_phantom_le g st v
        have : (liveDeg g st.removed v : Int) ≤ st.num v := by omega
        omega
      · exact absurd hm hvn
    · have hstep : (kCoresStep g k st).removed = st.removed := by
        unfold kCoresStep
        rw [hq]
        simp only [hlt, if_neg, ite_false]
      rw [hstep] at hv
      exact absurd hv hvn

/-- C3: removal in `_get_k_cores` uses strict less-than — whenever a node is
added to the removed set during the loop (for any graph, any threshold `k`,
any pre-populated removed set), its live degree at that moment is strictly
below `k`, hence never equal to `k`; and at `k = 0` the removed set never
changes during the whole run. -/
theorem kcores_strict_threshold_c3 (g : SGraph) (hwf : WF g) :
    (∀ (k : Nat) (R0 : Finset Nat) (n : Nat) (v : Nat),
      v ∈ (kCoresRun g k R0 (n + 1)).removed → v ∉ (kCoresRun g k R0 n).removed →
        liveDeg g (kCoresRun g k R0 n).removed v < k ∧
        liveDeg g (kCoresRun g k R0 n).removed v ≠ k) ∧
    (∀ (R0 : Finset Nat) (n : Nat), (kCoresRun g 0 R0 n).removed = R0) := by
  constructor
  · intro k R0 n v hv hvn
    have hinv := kCInv_run g k R0 hwf n
    have hstep : kCoresRun g k R0 (n + 1) = kCoresStep g k (kCoresRun g k R0 n) := by
      rw [kCoresRun, Function.iterate_succ_apply']
      rfl
    rw [hstep] at hv
    have := kc_step_new_removed g k (kCoresRun g k R0 n) v hinv hv hvn
    exact ⟨this, Nat.ne_of_lt this⟩
  · intro R0 n
    induction n with
    | zero => rfl
    | succ n ih =>
      have hstep : kCoresRun g 0 R0 (n + 1) = kCoresStep g 0 (kCoresRun g 0 R0 n) := by
        rw [kCoresRun, Function.iterate_succ_apply']
        rfl
      rw [hstep]
      obtain ⟨h1, h2, h3, h4⟩ := kCInv_run g 0 R0 hwf n
      cases hq : (kCoresRun g 0 R0 n).queue with
      | nil =>
        have : kCoresStep g 0 (kCoresRun g 0 R0 n) = kCoresRun g 0 R0 n := by
          unfold kCoresStep; rw [hq]
        rw [this]
        exact ih
      | cons id rest =>
        have hidq : id ∈ (kCoresRun g 0 R0 n).queue := by
          rw [hq]; exact List.mem_cons_self id rest
        have hnonneg : (0 : Int) ≤ (kCoresRun g 0 R0 n).num id := by
          by_cases hid : id ∈ (kCoresRun g 0 R0 n).removed
          · rw [h4 id hid hidq]
            positivity
          · have hL := h3 id hid
            have hb := kc_phantom_le g (kCoresRun g 0 R0 n) id
            omega
        have hnlt : ¬ (kCoresRun g 0 R0 n).num id < ((0 : Nat) : Int) := by
          push_cast
          omega
        have : kCoresStep g 0 (kCoresRun g 0 R0 n) =
            ⟨rest, (kCoresRun g 0 R0 n).removed, (kCoresRun g 0 R0 n).num⟩ := by
          unfold kCoresStep
          rw [hq]
          simp only [hnlt, if_neg, ite_false]
        rw [this]
        exact ih

/-- Closed instance of the C3 theorem on the triangle-plus-isolated-node
graph. -/
theorem kcores_strict_threshold_c3_witness :
    (∀ (k : Nat) (R0 : Finset Nat) (n : Nat) (v : Nat),
      v ∈ (kCoresRun gTri4 k R0 (n + 1)).removed → v ∉ (kCoresRun gTri4 k R0 n).removed →
        liveDeg gTri4 (kCoresRun gTri4 k R0 n).removed v < k ∧
        liveDeg gTri4 (kCoresRun gTri4 k R0 n).removed v ≠ k) ∧
    (∀ (R0 : Finset Nat) (n : Nat), (kCoresRun gTri4 0 R0 n).removed = R0) :=
  kcores_strict_threshold_c3 gTri4 (by decide)

/-- C4: throughout every execution of `_get_k_cores` — including runs with a
pre-populated removed set, as made by `get_coreness` and `get_k_trusses` — the
per-node counters are decremented only while strictly positive, so the
`usize` subtractions never underflow.  For any reachable state about to
process edge `w` of the popped node `id` (the queue head, below threshold),
with `w :: suf` the unprocessed suffix of `id`'s edge list and `w` an edge to
a not-yet-removed node, both counters that the source decrements at that
point (`num_neighbors[id]` and `num_neighbors[w]`) are strictly positive
after folding the already-processed prefix `pre`. -/
theorem kcores_no_underflow_c4 (g : SGraph) (hwf : WF g) :
    ∀ (k : Nat) (R0 : Finset Nat) (n : Nat) (id : Nat) (rest : List Nat)
      (pre suf : List Nat) (w : Nat),
      (kCoresRun g k R0 n).queue = id :: rest →
      (kCoresRun g k R0 n).num id < (k : Int) →
      g.adj id = pre ++ w :: suf →
      w ∉ insert id (kCoresRun g k R0 n).removed →
      0 < (pre.foldl (kCoresEdgeStep id (insert id (kCoresRun g k R0 n).removed))
            (rest, (kCoresRun g k R0 n).num)).2 w ∧
      0 < (pre.foldl (kCoresEdgeStep id (insert id (kCoresRun g k R0 n).removed))
            (rest, (kCoresRun g k R0 n).num)).2 id := by
  intro k R0 n id rest pre suf w hq _hlt hadj hw
  obtain ⟨h1, h2, h3, h4⟩ := kCInv_run g k R0 hwf n
  have hidq : id ∈ (kCoresRun g k R0 n).queue := by
    rw [hq]; exact List.mem_cons_self id rest
  have hidn : id ∈ g.nodes := h2 id hidq
  obtain ⟨hadjnd, hself, hcl⟩ := hwf.2 id hidn
  have hwadj : w ∈ g.adj id := by
    rw [hadj]
    exact List.mem_append_right pre (List.mem_cons_self w suf)
  have hwid : w ≠ id := fun hwi => hself (hwi ▸ hwadj)
  have hadjnd' : (pre ++ w :: suf).Nodup := hadj ▸ hadjnd
  obtain ⟨hprend, hsufnd, hdisj⟩ := List.nodup_append.1 hadjnd'
  have hwpre : w ∉ pre := fun hm => hdisj hm (List.mem_cons_self w suf)
  have hidpre : id ∉ pre := fun hm => hself (hadj ▸ List.mem_append_left _ hm)
  obtain ⟨hfold1, hfold2, hfold3⟩ :=
    kc_fold_num id (insert id (kCoresRun g k R0 n).removed) pre hprend hidpre
      rest (kCoresRun g k R0 n).num
  have hwrem : w ∉ (kCoresRun g k R0 n).removed :=
    fun hm => hw (Finset.mem_insert_of_mem hm)
  constructor
  · -- the neighbor's counter
    rw [hfold3 w hwid (Or.inr hwpre)]
    obtain ⟨hwn, hidadjw⟩ := hcl w hwadj
    have hL := h3 w hwrem
    have hphantlt : phantomCount g (kCoresRun g k R0 n) w < deg g w := by
      have hfl := filter_length_lt (g.adj w)
        (fun u => decide (u ∈ (kCoresRun g k R0 n).removed ∧ u ∉ (kCoresRun g k R0 n).queue))
        (fun _ => true) id hidadjw rfl
        (by
          simp only [decide_eq_false_iff_not]
          rintro ⟨_, hq2⟩
          exact hq2 hidq)
        (fun x _ _ => rfl)
      have htriv : (g.adj w).filter (fun _ => true) = g.adj w := by simp
      unfold phantomCount
      rw [htriv] at hfl
      exact hfl
    omega
  · -- the popped node's own counter
    rw [hfold1]
    have hnum_ge : (((g.adj id).filter
        (fun u => decide (u ∉ insert id (kCoresRun g k R0 n).removed))).length : Int) ≤
        (kCoresRun g k R0 n).num id := by
      by_cases hid : id ∈ (kCoresRun g k R0 n).removed
      · rw [h4 id hid hidq]
        have : ((g.adj id).filter
            (fun u => decide (u ∉ insert id (kCoresRun g k R0 n).removed))).length ≤
            (g.adj id).length := List.length_filter_le _ _
        have hdeg : deg g id = (g.adj id).length := rfl
        omega
      · have hL := h3 id hid
        have hsplit := filter_length_split (g.adj id)
          (fun u => decide (u ∉ insert id (kCoresRun g k R0 n).removed))
        have hmono : phantomCount g (kCoresRun g k R0 n) id ≤
            ((g.adj id).filter (fun u =>
              !(decide (u ∉ insert id (kCoresRun g k R0 n).removed)))).length := by
          unfold phantomCount
          refine filter_length_mono (g.adj id) _ _ ?_
          intro u _ hu
          simp only [decide_eq_true_eq] at hu
          simp only [Bool.not_eq_true', decide_eq_false_iff_not]
          intro hcon
          exact hcon (Finset.mem_insert_of_mem hu.1)
        have hdeg : deg g id = (g.adj id).length := rfl
        omega
    have hlt2 : (pre.filter
        (fun u => decide (u ∉ insert id (kCoresRun g k R0 n).removed))).length <
        ((g.adj id).filter
          (fun u => decide (u ∉ insert id (kCoresRun g k R0 n).removed))).length := by
      rw [hadj, List.filter_append, List.filter_cons]
      have hwd : decide (w ∉ insert id (kCoresRun g k R0 n).removed) = true := by
        simpa using hw
      rw [hwd, if_pos rfl]
      simp only [List.length_append, List.length_cons]
      omega
    have hlt2' : ((pre.filter
        (fun u => decide (u ∉ insert id (kCoresRun g k R0 n).removed))).length : Int) <
        (((g.adj id).filter
          (fun u => decide (u ∉ insert id (kCoresRun g k R0 n).removed))).length : Int) := by
      exact_mod_cast hlt2
    omega

/-- Closed instance of the C4 no-underflow theorem on the
triangle-plus-isolated-node graph: node 1 is popped first at threshold 3 with
counter 2, about to process its first edge (to node 2), and both counters
about to be decremented are strictly positive. -/
theorem kcores_no_underflow_c4_witness :
    (kCoresRun gTri4 3 ∅ 0).queue = 1 :: [2, 3, 4] ∧
    (kCoresRun gTri4 3 ∅ 0).num 1 < (3 : Int) ∧
    gTri4.adj 1 = [] ++ 2 :: [3] ∧
    2 ∉ insert 1 (kCoresRun gTri4 3 ∅ 0).removed ∧
    (0 < (([] : List Nat).foldl
          (kCoresEdgeStep 1 (insert 1 (kCoresRun gTri4 3 ∅ 0).removed))
          ([2, 3, 4], (kCoresRun gTri4 3 ∅ 0).num)).2 2 ∧
     0 < (([] : List Nat).foldl
          (kCoresEdgeStep 1 (insert 1 (kCoresRun gTri4 3 ∅ 0).removed))
          ([2, 3, 4], (kCoresRun gTri4 3 ∅ 0).num)).2 1) :=
  ⟨by decide, by decide, by decide, by decide,
    kcores_no_underflow_c4 gTri4 (by decide) 3 ∅ 0 1 [2, 3, 4] [] [3] 2
      (by decide) (by decide) (by decide) (by decide)⟩

/-! ## The strengthened invariant for empty-initial-removed runs (C5) -/

theorem liveDeg_empty (g : SGraph) (v : Nat) : liveDeg g ∅ v = deg g v := by
  unfold liveDeg
  have : (g.adj v).filter (fun w => decide (w ∉ (∅ : Finset Nat))) = g.adj v := by
    apply List.filter_eq_self.2
    intro a _
    simp
  rw [this]
  rfl

theorem filter_notmem_insert_length (s : Finset Nat) (a : Nat) (has : a ∉ s) :
    ∀ (l : List Nat), l.Nodup → a ∈ l →
      (l.filter (fun w => decide (w ∉ s))).length =
      (l.filter (fun w => decide (w ∉ insert a s))).length + 1 := by
  intro l
  induction l with
  | nil => intro _ ha; simp at ha
  | cons x t ih =>
    intro hnd ha
    have hxt : x ∉ t := (List.nodup_cons.1 hnd).1
    have htnd : t.Nodup := (List.nodup_cons.1 hnd).2
    by_cases hxa : x = a
    · subst hxa
      have hd1 : decide (x ∉ s) = true := by simpa using has
      have hd2 : decide (x ∉ insert x s) = false := by simp
      rw [List.filter_cons, List.filter_cons, hd1, if_pos rfl, hd2]
      simp only [Bool.false_eq_true, if_false, List.length_cons]
      have hcongr : t.filter (fun w => decide (w ∉ s)) =
          t.filter (fun w => decide (w ∉ insert x s)) := by
        apply List.filter_congr
        intro y hy
        have hyx : y ≠ x := fun hyx => hxt (hyx ▸ hy)
        rw [decide_eq_decide, Finset.mem_insert]
        tauto
      rw [hcongr]
    · have hat : a ∈ t := by
        rcases List.mem_cons.1 ha with h' | h'
        · exact absurd h'.symm hxa
        · exact h'
      have iht := ih htnd hat
      have hsame : decide (x ∉ s) = decide (x ∉ insert a s) := by
        rw [decide_eq_decide, Finset.mem_insert]
        constructor
        · intro hx hc
          rcases hc with hc | hc
          · exact hxa hc
          · exact hx hc
        · intro hx hc
          exact hx (Or.inr hc)
      rw [List.filter_cons, List.filter_cons, ← hsame]
      by_cases hxs : decide (x ∉ s) = true
      · rw [hxs]
        simpa using iht
      · have hxs' : decide (x ∉ s) = false := by simpa using hxs
        rw [hxs']
        simpa using iht

theorem liveDeg_insert (g : SGraph) (s : Finset Nat) (v a : Nat)
    (hnd : (g.adj v).Nodup) (ha : a ∈ g.adj v) (has : a ∉ s) :
    liveDeg g s v = liveDeg g (insert a s) v + 1 :=
  filter_notmem_insert_length s a has (g.adj v) hnd ha

theorem liveDeg_congr_notmem (g : SGraph) (s : Finset Nat) (v a : Nat)
    (ha : a ∉ g.adj v) (_has : a ∉ s) :
    liveDeg g s v = liveDeg g (insert a s) v := by
  unfold liveDeg
  congr 1
  apply List.filter_congr
  intro y hy
  have hya : y ≠ a := fun hya => ha (hya ▸ hy)
  rw [decide_eq_decide, Finset.mem_insert]
  constructor
  · intro hx hc
    rcases hc with hc | hc
    · exact hya hc
    · exact hx hc
  · intro hx hc
    exact hx (Or.inr hc)

theorem kCInv0_init (g : SGraph) (k : Nat) : KCInv0 g k (kCoresInit g ∅) := by
  refine ⟨pairwise_sortNat, fun v hv => mem_sortNat.1 hv, ?_, ?_, ?_⟩
  · intro v hv
    exact absurd hv (Finset.not_mem_empty v)
  · intro v _ _
    show (deg g v : Int) = (liveDeg g ∅ v : Int)
    rw [liveDeg_empty]
  · intro v hv _ hvq
    exact absurd (mem_sortNat.2 hv) hvq

theorem kCInv0_step (g : SGraph) (k : Nat) (st : KCState) (hwf : WF g)
    (h : KCInv0 g k st) : KCInv0 g k (kCoresStep g k st) := by
  obtain ⟨h1, h2, h3, h4, h5⟩ := h
  cases hq : st.queue with
  | nil =>
    have : kCoresStep g k st = st := by
      unfold kCoresStep; rw [hq]
    rw [this]
    exact ⟨h1, h2, h3, h4, h5⟩
  | cons id rest =>
    have hidq : id ∈ st.queue := by rw [hq]; exact List.mem_cons_self id rest
    have hrestq : ∀ y ∈ rest, y ∈ st.queue := by
      intro y hy; rw [hq]; exact List.mem_cons_of_mem id hy
    have hidn : id ∈ g.nodes := h2 id hidq
    have hpair : (id :: rest).Pairwise (· < ·) := hq ▸ h1
    have hidlt : ∀ y ∈ rest, id < y := (List.pairwise_cons.1 hpair).1
    have hrest_sorted : rest.Pairwise (· < ·) := (List.pairwise_cons.1 hpair).2
    have hidrest : id ∉ rest := fun hm => lt_irrefl id (hidlt id hm)
    have hidrem : id ∉ st.removed := fun hm => h3 id hm hidq
    obtain ⟨hadjnd, hself, hcl⟩ := hwf.2 id hidn
    by_cases hlt : st.num id < (k : Int)
    · have hstep : kCoresStep g k st =
          ⟨((g.adj id).foldl (kCoresEdgeStep id (insert id st.removed)) (rest, st.num)).1,
           insert id st.removed,
           ((g.adj id).foldl (kCoresEdgeStep id (insert id st.removed)) (rest, st.num)).2⟩ := by
        unfold kCoresStep
        rw [hq]
        simp only [hlt, if_pos]
      rw [hstep]
      have hmemq : ∀ x,
          x ∈ ((g.adj id).foldl (kCoresEdgeStep id (insert id st.removed)) (rest, st.num)).1 ↔
          x ∈ rest ∨ (x ∈ g.adj id ∧ x ∉ insert id st.removed) := by
        intro x
        exact kc_fold_queue_mem id (insert id st.removed) x (g.adj id) rest st.num
      obtain ⟨hfold1, hfold2, hfold3⟩ :=
        kc_fold_num id (insert id st.removed) (g.adj id) hadjnd hself rest st.num
      have hidnotq :
          id ∉ ((g.adj id).foldl (kCoresEdgeStep id (insert id st.removed)) (rest, st.num)).1 := by
        rw [hmemq]
        rintro (hm | ⟨hm, _⟩)
        · exact hidrest hm
        · exact hself hm
      refine ⟨?_, ?_, ?_, ?_, ?_⟩
      · exact kc_fold_queue_sorted id (insert id st.removed) (g.adj id) rest st.num hrest_sorted
      · intro x hx
        rcases (hmemq x).1 hx with hm | ⟨hm, _⟩
        · exact h2 x (hrestq x hm)
        · exact (hcl x hm).1
      · -- disjointness of removed and queue
        intro v hv
        rcases Finset.mem_insert.1 hv with rfl | hm
        · exact hidnotq
        · intro hvq
          rcases (hmemq v).1 hvq with hq2 | ⟨_, hq3⟩
          · exact h3 v hm (hrestq v hq2)
          · exact hq3 (Finset.mem_insert_of_mem hm)
      · -- counters equal live degrees
        intro v hvn hv
        have hvid : v ≠ id := by
          rintro rfl
          exact hv (Finset.mem_insert_self v st.removed)
        have hvold : v ∉ st.removed := fun hm => hv (Finset.mem_insert_of_mem hm)
        have heq := h4 v hvn hvold
        obtain ⟨hadjvnd, _, hclv⟩ := hwf.2 v hvn
        by_cases hvadj : v ∈ g.adj id
        · have hidadjv : id ∈ g.adj v := (hcl v hvadj).2
          have hnum : ((g.adj id).foldl (kCoresEdgeStep id (insert id st.removed))
              (rest, st.num)).2 v = st.num v - 1 := hfold2 v hvid hvadj hv
          have hld := liveDeg_insert g st.removed v id hadjvnd hidadjv hidrem
          show ((g.adj id).foldl (kCoresEdgeStep id (insert id st.removed))
              (rest, st.num)).2 v = (liveDeg g (insert id st.removed) v : Int)
          rw [hnum, heq]
          omega
        · have hidnadjv : id ∉ g.adj v := by
            intro hm
            exact hvadj (hclv id hm).2
          have hnum : ((g.adj id).foldl (kCoresEdgeStep id (insert id st.removed))
              (rest, st.num)).2 v = st.num v := hfold3 v hvid (Or.inr hvadj)
          have hld := liveDeg_congr_notmem g st.removed v id hidnadjv hidrem
          show ((g.adj id).foldl (kCoresEdgeStep id (insert id st.removed))
              (rest, st.num)).2 v = (liveDeg g (insert id st.removed) v : Int)
          rw [hnum, heq, hld]
      · -- dequeued live nodes passed the threshold
        intro v hvn hv hvq
        have hvid : v ≠ id := by
          rintro rfl
          exact hv (Finset.mem_insert_self v st.removed)
        have hvold : v ∉ st.removed := fun hm => hv (Finset.mem_insert_of_mem hm)
        rw [hmemq] at hvq
        push_neg at hvq
        obtain ⟨hvrest, hvq2⟩ := hvq
        have hvadj : v ∉ g.adj id := fun hm => hv (hvq2 hm)
        have hnum : ((g.adj id).foldl (kCoresEdgeStep id (insert id st.removed))
            (rest, st.num)).2 v = st.num v := hfold3 v hvid (Or.inr hvadj)
        have hvnotq : v ∉ st.queue := by
          rw [hq]
          intro hm
          rcases List.mem_cons.1 hm with hvi | hm
          · exact hvid hvi
          · exact hvrest hm
        show (k : Int) ≤ ((g.adj id).foldl (kCoresEdgeStep id (insert id st.removed))
            (rest, st.num)).2 v
        rw [hnum]
        exact h5 v hvn hvold hvnotq
    · have hstep : kCoresStep g k st = ⟨rest, st.removed, st.num⟩ := by
        unfold kCoresStep
        rw [hq]
        simp only [hlt, if_neg, ite_false]
      rw [hstep]
      refine ⟨hrest_sorted, fun v hv => h2 v (hrestq v hv), ?_, h4, ?_⟩
      · intro v hv hvq
        exact h3 v hv (hrestq v hvq)
      · intro v hvn hv hvq
        by_cases hvid : v = id
        · subst hvid
          rw [h4 v hvn hv] at hlt ⊢
          omega
        · have hvnotq : v ∉ st.queue := by
            rw [hq]
            intro hm
            rcases List.mem_cons.1 hm with hvi | hm
            · exact hvid hvi
            · exact hvq hm
          exact h5 v hvn hv hvnotq

theorem kCInv0_run (g : SGraph) (k : Nat) (hwf : WF g) :
    ∀ n, KCInv0 g k (kCoresRun g k ∅ n) := by
  intro n
  induction n with
  | zero => exact kCInv0_init g k
  | succ n ih =>
    rw [kCoresRun, Function.iterate_succ_apply']
    exact kCInv0_step g k _ hwf ih

theorem kcPhi_step_lt (g : SGraph) (k : Nat) (st : KCState)
    (h : KCInv0 g k st) (hne : st.queue ≠ []) :
    kcPhi g (kCoresStep g k st) < kcPhi g st := by
  obtain ⟨h1, h2, h3, h4, h5⟩ := h
  cases hq : st.queue with
  | nil => exact absurd hq hne
  | cons id rest =>
    have hidq : id ∈ st.queue := by rw [hq]; exact List.mem_cons_self id rest
    have hidn : id ∈ g.nodes := h2 id hidq
    have hidrem : id ∉ st.removed := fun hm => h3 id hm hidq
    have hqlen : st.queue.length = rest.length + 1 := by rw [hq]; rfl
    have hidin : id ∈ g.nodes.toFinset \ st.removed :=
      Finset.mem_sdiff.2 ⟨List.mem_toFinset.2 hidn, hidrem⟩
    have hsum := Finset.sum_erase_add (g.nodes.toFinset \ st.removed)
      (fun v => 1 + deg g v) hidin
    by_cases hlt : st.num id < (k : Int)
    · have hstep : kCoresStep g k st =
          ⟨((g.adj id).foldl (kCoresEdgeStep id (insert id st.removed)) (rest, st.num)).1,
           insert id st.removed,
           ((g.adj id).foldl (kCoresEdgeStep id (insert id st.removed)) (rest, st.num)).2⟩ := by
        unfold kCoresStep
        rw [hq]
        simp only [hlt, if_pos]
      rw [hstep]
      have hqlen2 : ((g.adj id).foldl (kCoresEdgeStep id (insert id st.removed))
          (rest, st.num)).1.length ≤ rest.length + (g.adj id).length :=
        kc_fold_queue_len id (insert id st.removed) (g.adj id) rest st.num
      have hsd : g.nodes.toFinset \ insert id st.removed =
          (g.nodes.toFinset \ st.removed).erase id := by
        ext x
        simp only [Finset.mem_sdiff, Finset.mem_erase, Finset.mem_insert]
        tauto
      have hPhi : kcPhi g st = st.queue.length +
          Finset.sum (g.nodes.toFinset \ st.removed) (fun v => 1 + deg g v) := rfl
      show ((g.adj id).foldl (kCoresEdgeStep id (insert id st.removed))
          (rest, st.num)).1.length +
          Finset.sum (g.nodes.toFinset \ insert id st.removed) (fun v => 1 + deg g v) <
          kcPhi g st
      rw [hsd, hPhi]
      have hsum' : (∑ v ∈ (g.nodes.toFinset \ st.removed).erase id, (1 + deg g v)) +
          (1 + deg g id) = ∑ v ∈ g.nodes.toFinset \ st.removed, (1 + deg g v) := by
        simpa using hsum
      have hdeg : deg g id = (g.adj id).length := rfl
      omega
    · have hstep : kCoresStep g k st = ⟨rest, st.removed, st.num⟩ := by
        unfold kCoresStep
        rw [hq]
        simp only [hlt, if_neg, ite_false]
      rw [hstep]
      show rest.length + Finset.sum (g.nodes.toFinset \ st.removed) (fun v => 1 + deg g v) <
          kcPhi g st
      unfold kcPhi
      omega

theorem kc_queue_empty (g : SGraph) (k : Nat) (hwf : WF g) :
    ∀ (fuel : Nat) (st : KCState), KCInv0 g k st → kcPhi g st ≤ fuel →
      ((kCoresStep g k)^[fuel] st).queue = [] := by
  intro fuel
  induction fuel with
  | zero =>
    intro st _ hphi
    have hle : st.queue.length ≤ kcPhi g st := Nat.le_add_right _ _
    have : st.queue.length = 0 := by omega
    have hnil : st.queue = [] := List.length_eq_zero.1 this
    simpa using hnil
  | succ fuel ih =>
    intro st hinv hphi
    cases hqe : st.queue with
    | nil =>
      have hfix : kCoresStep g k st = st := by unfold kCoresStep; rw [hqe]
      rw [Function.iterate_fixed hfix]
      exact hqe
    | cons id rest =>
      rw [Function.iterate_succ_apply]
      refine ih (kCoresStep g k st) (kCInv0_step g k st hwf hinv) ?_
      have := kcPhi_step_lt g k st hinv (by rw [hqe]; simp)
      omega

theorem sum_map_one_add (g : SGraph) :
    ∀ (l : List Nat), (l.map (fun v => 1 + deg g v)).sum = l.length + (l.map (deg g)).sum := by
  intro l
  induction l with
  | nil => simp
  | cons x t ih =>
    simp only [List.map_cons, List.sum_cons, List.length_cons]
    omega

theorem kc_final_queue_empty (g : SGraph) (k : Nat) (hwf : WF g) :
    (kCoresRun g k ∅ (kCoresFuel g)).queue = [] := by
  refine kc_queue_empty g k hwf (kCoresFuel g) (kCoresInit g ∅) (kCInv0_init g k) ?_
  unfold kcPhi kCoresFuel
  have hq : (kCoresInit g ∅).queue = sortNat g.nodes := rfl
  have hql : (sortNat g.nodes).length ≤ g.nodes.length := length_sortNat_le
  have hsd : g.nodes.toFinset \ (kCoresInit g ∅).removed = g.nodes.toFinset := by
    show g.nodes.toFinset \ ∅ = g.nodes.toFinset
    exact Finset.sdiff_empty
  rw [hq, hsd]
  rw [List.sum_toFinset _ hwf.1]
  rw [sum_map_one_add g]
  unfold totalDeg
  omega

theorem kc_final_minDeg (g : SGraph) (k : Nat) (hwf : WF g) :
    ∀ v ∈ g.nodes, v ∉ (kCoresRun g k ∅ (kCoresFuel g)).removed →
      k ≤ liveDeg g (kCoresRun g k ∅ (kCoresFuel g)).removed v := by
  intro v hv hvr
  obtain ⟨_, _, _, h4, h5⟩ := kCInv0_run g k hwf (kCoresFuel g)
  have hqe := kc_final_queue_empty g k hwf
  have hnotq : v ∉ (kCoresRun g k ∅ (kCoresFuel g)).queue := by
    rw [hqe]
    simp
  have heq := h4 v hv hvr
  have hge := h5 v hv hvr hnotq
  omega

theorem kc_T_preserved (g : SGraph) (k : Nat) (hwf : WF g) (T : Finset Nat)
    (hTn : ∀ v ∈ T, v ∈ g.nodes)
    (hTdeg : ∀ v ∈ T, k ≤ ((g.adj v).filter (fun w => decide (w ∈ T))).length) :
    ∀ n, ∀ v ∈ T, v ∉ (kCoresRun g k ∅ n).removed := by
  intro n
  induction n with
  | zero =>
    intro v _
    exact Finset.not_mem_empty v
  | succ n ih =>
    intro v hvT
    have hstep0 : kCoresRun g k ∅ (n + 1) = kCoresStep g k (kCoresRun g k ∅ n) := by
      rw [kCoresRun, Function.iterate_succ_apply']
      rfl
    rw [hstep0]
    obtain ⟨h1, h2, h3, h4, h5⟩ := kCInv0_run g k hwf n
    cases hq : (kCoresRun g k ∅ n).queue with
    | nil =>
      have : kCoresStep g k (kCoresRun g k ∅ n) = kCoresRun g k ∅ n := by
        unfold kCoresStep; rw [hq]
      rw [this]
      exact ih v hvT
    | cons id rest =>
      have hidq : id ∈ (kCoresRun g k ∅ n).queue := by
        rw [hq]; exact List.mem_cons_self id rest
      by_cases hlt : (kCoresRun g k ∅ n).num id < (k : Int)
      · have hstep : (kCoresStep g k (kCoresRun g k ∅ n)).removed =
            insert id (kCoresRun g k ∅ n).removed := by
          unfold kCoresStep
          rw [hq]
          simp only [hlt, if_pos]
        rw [hstep]
        intro hmem
        rcases Finset.mem_insert.1 hmem with rfl | hm
        · -- the popped node cannot lie in T: its live degree is at least k
          have hidn : v ∈ g.nodes := hTn v hvT
          have hidrem : v ∉ (kCoresRun g k ∅ n).removed := ih v hvT
          have heq := h4 v hidn hidrem
          have hmono : ((g.adj v).filter (fun w => decide (w ∈ T))).length ≤
              liveDeg g (kCoresRun g k ∅ n).removed v := by
            unfold liveDeg
            refine filter_length_mono (g.adj v) _ _ ?_
            intro u _ hu
            simp only [decide_eq_true_eq] at hu ⊢
            exact ih u hu
          have hk := hTdeg v hvT
          omega
        · exact ih v hvT hm
      · have hstep : (kCoresStep g k (kCoresRun g k ∅ n)).removed =
            (kCoresRun g k ∅ n).removed := by
          unfold kCoresStep
          rw [hq]
          simp only [hlt, if_neg, ite_false]
        rw [hstep]
        exact ih v hvT

theorem subset_iterate_expandLive (g : SGraph) (removed : Finset Nat) :
    ∀ (n : Nat) (s : Finset Nat), s ⊆ (expandLive g removed)^[n] s := by
  intro n
  induction n with
  | zero => intro s; simp
  | succ n ih =>
    intro s
    rw [Function.iterate_succ_apply]
    exact subset_trans (Finset.subset_union_left) (ih (expandLive g removed s))

theorem mem_reachLive_self (g : SGraph) (removed : Finset Nat) (v : Nat) :
    v ∈ reachLive g removed v :=
  subset_iterate_expandLive g removed g.nodes.length {v} (Finset.mem_singleton_self v)

theorem components_fold_spec (g : SGraph) (removed : Finset Nat) :
    ∀ (l : List Nat) (acc : List (List Nat) × Finset Nat),
      (∀ x ∈ acc.2, x ∈ g.nodes ∧ x ∉ removed) →
      totalSize acc.1 = acc.2.card →
      totalSize (l.foldl (ccStep g removed) acc).1 = ((l.foldl (ccStep g removed) acc).2).card ∧
      (∀ x ∈ (l.foldl (ccStep g removed) acc).2, x ∈ g.nodes ∧ x ∉ removed) ∧
      (∀ x ∈ acc.2, x ∈ (l.foldl (ccStep g removed) acc).2) ∧
      (∀ v ∈ l, v ∈ g.nodes → v ∉ removed → v ∈ (l.foldl (ccStep g removed) acc).2) := by
  intro l
  induction l with
  | nil =>
    intro acc hmem hsize
    refine ⟨hsize, hmem, fun x hx => hx, ?_⟩
    intro v hv
    simp at hv
  | cons v t ih =>
    intro acc hmem hsize
    by_cases hskip : v ∈ removed ∨ v ∈ acc.2
    · have hstep : ccStep g removed acc v = acc := by
        unfold ccStep
        rw [if_pos hskip]
      rw [List.foldl_cons, hstep]
      obtain ⟨s1, s2, s3, s4⟩ := ih acc hmem hsize
      refine ⟨s1, s2, s3, ?_⟩
      intro u hu hun hur
      rcases List.mem_cons.1 hu with rfl | hu
      · rcases hskip with h | h
        · exact absurd h hur
        · exact s3 u h
      · exact s4 u hu hun hur
    · push_neg at hskip
      obtain ⟨hvr, hva⟩ := hskip
      have hstep : ccStep g removed acc v =
          (acc.1 ++ [sortNat (g.nodes.filter
            (fun w => decide (w ∉ removed ∧ w ∈ reachLive g removed v ∧ w ∉ acc.2)))],
           acc.2 ∪ (sortNat (g.nodes.filter
            (fun w => decide (w ∉ removed ∧ w ∈ reachLive g removed v ∧ w ∉ acc.2)))).toFinset) := by
        unfold ccStep
        rw [if_neg (by push_neg; exact ⟨hvr, hva⟩)]
      rw [List.foldl_cons, hstep]
      have hcompmem : ∀ x, x ∈ sortNat (g.nodes.filter
          (fun w => decide (w ∉ removed ∧ w ∈ reachLive g removed v ∧ w ∉ acc.2))) ↔
          (x ∈ g.nodes ∧ (x ∉ removed ∧ x ∈ reachLive g removed v ∧ x ∉ acc.2)) := by
        intro x
        rw [mem_sortNat, List.mem_filter]
        simp
      have hmem' : ∀ x ∈ (acc.2 ∪ (sortNat (g.nodes.filter
          (fun w => decide (w ∉ removed ∧ w ∈ reachLive g removed v ∧ w ∉ acc.2)))).toFinset),
          x ∈ g.nodes ∧ x ∉ removed := by
        intro x hx
        rcases Finset.mem_union.1 hx with hx | hx
        · exact hmem x hx
        · have := (hcompmem x).1 (List.mem_toFinset.1 hx)
          exact ⟨this.1, this.2.1⟩
      have hdisj : Disjoint acc.2 (sortNat (g.nodes.filter
          (fun w => decide (w ∉ removed ∧ w ∈ reachLive g removed v ∧ w ∉ acc.2)))).toFinset := by
        rw [Finset.disjoint_left]
        intro x hx hx2
        exact ((hcompmem x).1 (List.mem_toFinset.1 hx2)).2.2.2 hx
      have hsize' : totalSize (acc.1 ++ [sortNat (g.nodes.filter
          (fun w => decide (w ∉ removed ∧ w ∈ reachLive g removed v ∧ w ∉ acc.2)))]) =
          (acc.2 ∪ (sortNat (g.nodes.filter
            (fun w => decide (w ∉ removed ∧ w ∈ reachLive g removed v ∧ w ∉ acc.2)))).toFinset).card := by
        unfold totalSize
        rw [List.map_append, List.sum_append]
        rw [Finset.card_union_of_disjoint hdisj]
        rw [List.toFinset_card_of_nodup nodup_sortNat]
        unfold totalSize at hsize
        simp [hsize]
      obtain ⟨s1, s2, s3, s4⟩ := ih
        (acc.1 ++ [sortNat (g.nodes.filter
          (fun w => decide (w ∉ removed ∧ w ∈ reachLive g removed v ∧ w ∉ acc.2)))],
         acc.2 ∪ (sortNat (g.nodes.filter
          (fun w => decide (w ∉ removed ∧ w ∈ reachLive g removed v ∧ w ∉ acc.2)))).toFinset)
        hmem' hsize'
      refine ⟨s1, s2, ?_, ?_⟩
      · intro x hx
        exact s3 x (Finset.mem_union_left _ hx)
      · intro u hu hun hur
        rcases List.mem_cons.1 hu with rfl | hu
        · refine s3 u (Finset.mem_union_right _ ?_)
          rw [List.mem_toFinset, hcompmem]
          exact ⟨hun, hur, mem_reachLive_self g removed u, hva⟩
        · exact s4 u hu hun hur

theorem components_sum (g : SGraph) (hnd : g.nodes.Nodup) (removed : Finset Nat) :
    totalSize (connectedComponents g removed) =
      (g.nodes.filter (fun v => decide (v ∉ removed))).length := by
  obtain ⟨s1, s2, _, s4⟩ := components_fold_spec g removed g.nodes ([], ∅)
    (by intro x hx; exact absurd hx (Finset.not_mem_empty x)) (by rfl)
  have hset : (g.nodes.foldl (ccStep g removed) ([], ∅)).2 =
      (g.nodes.filter (fun v => decide (v ∉ removed))).toFinset := by
    apply Finset.Subset.antisymm
    · intro x hx
      obtain ⟨hxn, hxr⟩ := s2 x hx
      rw [List.mem_toFinset, List.mem_filter]
      exact ⟨hxn, by simpa using hxr⟩
    · intro x hx
      rw [List.mem_toFinset, List.mem_filter] at hx
      exact s4 x hx.1 hx.1 (by simpa using hx.2)
  have : totalSize (connectedComponents g removed) =
      ((g.nodes.foldl (ccStep g removed) ([], ∅)).2).card := s1
  rw [this, hset, List.toFinset_card_of_nodup (hnd.filter _)]

/-- C5: for all thresholds `k1 ≤ k2`, the total number of nodes in the
partition returned by `get_k_cores(k2)` is at most that of `get_k_cores(k1)`:
the surviving node set shrinks (or stays equal) as `k` increases. -/
theorem kcores_monotone_c5 (g : SGraph) (hwf : WF g) (k1 k2 : Nat) (hk : k1 ≤ k2) :
    totalSize (getKCores g k2) ≤ totalSize (getKCores g k1) := by
  have h2 := components_sum g hwf.1 (kCoresRun g k2 ∅ (kCoresFuel g)).removed
  have h1 := components_sum g hwf.1 (kCoresRun g k1 ∅ (kCoresFuel g)).removed
  have hget : ∀ k, totalSize (getKCores g k) =
      (g.nodes.filter (fun v => decide (v ∉ (kCoresRun g k ∅ (kCoresFuel g)).removed))).length := by
    intro k
    exact components_sum g hwf.1 _
  rw [hget k1, hget k2]
  -- survivors of the k2 run survive the k1 run
  have hsub : ∀ v ∈ g.nodes, v ∉ (kCoresRun g k2 ∅ (kCoresFuel g)).removed →
      v ∉ (kCoresRun g k1 ∅ (kCoresFuel g)).removed := by
    intro v hv hvr
    have hTn : ∀ u ∈ (g.nodes.toFinset \ (kCoresRun g k2 ∅ (kCoresFuel g)).removed), u ∈ g.nodes := by
      intro u hu
      exact List.mem_toFinset.1 (Finset.mem_sdiff.1 hu).1
    have hTdeg : ∀ u ∈ (g.nodes.toFinset \ (kCoresRun g k2 ∅ (kCoresFuel g)).removed),
        k1 ≤ ((g.adj u).filter (fun w => decide (w ∈
          (g.nodes.toFinset \ (kCoresRun g k2 ∅ (kCoresFuel g)).removed)))).length := by
      intro u hu
      obtain ⟨hun, hur⟩ := Finset.mem_sdiff.1 hu
      have hun' : u ∈ g.nodes := List.mem_toFinset.1 hun
      have hld := kc_final_minDeg g k2 hwf u hun' hur
      have hcongr : (g.adj u).filter (fun w => decide (w ∈
          (g.nodes.toFinset \ (kCoresRun g k2 ∅ (kCoresFuel g)).removed))) =
          (g.adj u).filter (fun w => decide (w ∉ (kCoresRun g k2 ∅ (kCoresFuel g)).removed)) := by
        apply List.filter_congr
        intro w hw
        have hwn : w ∈ g.nodes := ((hwf.2 u hun').2.2 w hw).1
        rw [decide_eq_decide, Finset.mem_sdiff, List.mem_toFinset]
        tauto
      rw [hcongr]
      exact le_trans hk hld
    have := kc_T_preserved g k1 hwf
      (g.nodes.toFinset \ (kCoresRun g k2 ∅ (kCoresFuel g)).removed) hTn hTdeg
      (kCoresFuel g) v (Finset.mem_sdiff.2 ⟨List.mem_toFinset.2 hv, hvr⟩)
    exact this
  refine filter_length_mono g.nodes _ _ ?_
  intro v hv hd
  simp only [decide_eq_true_eq] at hd ⊢
  exact hsub v hv hd

/-- Closed instance of the C5 monotonicity theorem on the
triangle-plus-isolated-node graph at `k1 = 1 ≤ 2 = k2`. -/
theorem kcores_monotone_c5_witness :
    totalSize (getKCores gTri4 2) ≤ totalSize (getKCores gTri4 1) :=
  kcores_monotone_c5 gTri4 (by decide) 1 2 (by omega)

/-! ## k-truss machinery (C7) -/

theorem canonPair_fst_lt_snd {a b : Nat} (h : a ≠ b) :
    (canonPair a b).1 < (canonPair a b).2 := by
  unfold canonPair
  by_cases hab : a < b
  · rw [if_pos hab]
    exact hab
  · rw [if_neg hab]
    show b < a
    omega

theorem canonPair_comm (a b : Nat) (h : a ≠ b) : canonPair a b = canonPair b a := by
  unfold canonPair
  by_cases hab : a < b
  · rw [if_pos hab, if_neg (by omega)]
  · rw [if_neg hab, if_pos (by omega)]

theorem canonPair_of_lt {a b : Nat} (h : a < b) : canonPair a b = (a, b) := by
  unfold canonPair
  rw [if_pos h]

theorem canonPair_eq_iff {u w a b : Nat} (hab : a < b) :
    canonPair u w = (a, b) ↔ ((u = a ∧ w = b) ∨ (u = b ∧ w = a)) := by
  unfold canonPair
  by_cases huw : u < w
  · rw [if_pos huw]
    rw [Prod.mk.injEq]
    constructor
    · rintro ⟨rfl, rfl⟩
      exact Or.inl ⟨rfl, rfl⟩
    · rintro (⟨rfl, rfl⟩ | ⟨rfl, rfl⟩)
      · exact ⟨rfl, rfl⟩
      · omega
  · rw [if_neg huw]
    rw [Prod.mk.injEq]
    constructor
    · rintro ⟨rfl, rfl⟩
      exact Or.inr ⟨rfl, rfl⟩
    · rintro (⟨rfl, rfl⟩ | ⟨rfl, rfl⟩)
      · omega
      · exact ⟨rfl, rfl⟩

theorem mem_insertEdge {e y : Nat × Nat} : ∀ {l : List (Nat × Nat)},
    y ∈ insertEdge e l ↔ y = e ∨ y ∈ l := by
  intro l
  induction l with
  | nil => simp [insertEdge]
  | cons f l ih =>
    by_cases h1 : e.1 < f.1 ∨ (e.1 = f.1 ∧ e.2 < f.2)
    · simp only [insertEdge, if_pos h1, List.mem_cons]
    · by_cases h2 : e = f
      · subst h2
        simp [insertEdge, h1]
      · simp only [insertEdge, if_neg h1, if_neg h2, List.mem_cons, ih]
        tauto

theorem wsub_eq_sub {k b : Nat} (hb : b ≤ k) (hk : k < 2 ^ 64) (hb2 : b ≤ 2 ^ 64) :
    wsub k b = k - b := by
  unfold wsub
  have hbm : b % 2 ^ 64 = b ∨ b = 2 ^ 64 := by
    rcases Nat.lt_or_ge b (2 ^ 64) with h | h
    · exact Or.inl (Nat.mod_eq_of_lt h)
    · exact Or.inr (le_antisymm hb2 h)
  rcases hbm with h | h
  · rw [h]
    have : k + (2 ^ 64 - b) = (k - b) + 2 ^ 64 := by omega
    rw [this, Nat.add_mod_right]
    exact Nat.mod_eq_of_lt (by omega)
  · subst h
    omega

theorem mem_truss_edges_inner (v : Nat) (x : Nat × Nat) :
    ∀ (l : List Nat) (es : List (Nat × Nat)),
      (x ∈ l.foldl (fun es w => insertEdge (canonPair v w) es) es ↔
        (∃ w ∈ l, canonPair v w = x) ∨ x ∈ es) := by
  intro l
  induction l with
  | nil => intro es; simp
  | cons w t ih =>
    intro es
    rw [List.foldl_cons, ih]
    constructor
    · rintro (⟨w', hw', hcw⟩ | hx)
      · exact Or.inl ⟨w', List.mem_cons_of_mem w hw', hcw⟩
      · rcases mem_insertEdge.1 hx with rfl | hx
        · exact Or.inl ⟨w, List.mem_cons_self w t, rfl⟩
        · exact Or.inr hx
    · rintro (⟨w', hw', hcw⟩ | hx)
      · rcases List.mem_cons.1 hw' with rfl | hw'
        · exact Or.inr (mem_insertEdge.2 (Or.inl hcw.symm))
        · exact Or.inl ⟨w', hw', hcw⟩
      · exact Or.inr (mem_insertEdge.2 (Or.inr hx))

theorem mem_truss_edges_outer (g : SGraph) (x : Nat × Nat) :
    ∀ (ln : List Nat) (es : List (Nat × Nat)),
      (x ∈ ln.foldl
        (fun es v => (g.adj v).foldl (fun es w => insertEdge (canonPair v w) es) es) es ↔
        (∃ v ∈ ln, ∃ w ∈ g.adj v, canonPair v w = x) ∨ x ∈ es) := by
  intro ln
  induction ln with
  | nil => intro es; simp
  | cons v t ih =>
    intro es
    rw [List.foldl_cons, ih, mem_truss_edges_inner v x]
    constructor
    · rintro (⟨v', hv', hw⟩ | (⟨w, hw, hcw⟩ | hx))
      · exact Or.inl ⟨v', List.mem_cons_of_mem v hv', hw⟩
      · exact Or.inl ⟨v, List.mem_cons_self v t, w, hw, hcw⟩
      · exact Or.inr hx
    · rintro (⟨v', hv', hw⟩ | hx)
      · rcases List.mem_cons.1 hv' with rfl | hv'
        · exact Or.inr (Or.inl hw)
        · exact Or.inl ⟨v', hv', hw⟩
      · exact Or.inr (Or.inr hx)

theorem mem_trussInit_edges (g : SGraph) (ign : Finset Nat) (x : Nat × Nat) :
    x ∈ (trussInit g ign).edges ↔ ∃ v ∈ g.nodes, ∃ w ∈ g.adj v, canonPair v w = x := by
  show x ∈ g.nodes.foldl
      (fun es v => (g.adj v).foldl (fun es w => insertEdge (canonPair v w) es) es) [] ↔ _
  rw [mem_truss_edges_outer g x g.nodes []]
  simp

theorem trussInit_inv (g : SGraph) (hwf : WF g) (ign : Finset Nat) :
    TrussInv g ign (trussInit g ign) := by
  refine ⟨?_, ?_, ?_, ?_⟩
  · intro u hu
    exact ((hwf.2 u hu).1).filter _
  · intro u _ w
    show w ∈ (g.adj u).filter (fun w => decide (w ∉ ign)) ↔ _
    rw [List.mem_filter]
    simp only [decide_eq_true_eq]
    constructor
    · rintro ⟨h1, h2⟩
      exact ⟨h1, h2, Finset.not_mem_empty _⟩
    · rintro ⟨h1, h2, _⟩
      exact ⟨h1, h2⟩
  · intro e he
    rw [mem_trussInit_edges] at he
    obtain ⟨v, hv, w, hw, hcw⟩ := he
    have hwn : w ∈ g.nodes := ((hwf.2 v hv).2.2 w hw).1
    have hvw : v ≠ w := fun hvw => (hwf.2 v hv).2.1 (hvw ▸ hw)
    have hcan := canonPair_fst_lt_snd hvw
    rw [hcw] at hcan
    refine ⟨hcan, ?_, ?_⟩
    · have : e.1 = v ∨ e.1 = w := by
        unfold canonPair at hcw
        by_cases h : v < w
        · rw [if_pos h] at hcw
          exact Or.inl (congrArg Prod.fst hcw).symm
        · rw [if_neg h] at hcw
          exact Or.inr (congrArg Prod.fst hcw).symm
      rcases this with h | h
      · exact h ▸ hv
      · exact h ▸ hwn
    · have : e.2 = v ∨ e.2 = w := by
        unfold canonPair at hcw
        by_cases h : v < w
        · rw [if_pos h] at hcw
          exact Or.inr (congrArg Prod.snd hcw).symm
        · rw [if_neg h] at hcw
          exact Or.inl (congrArg Prod.snd hcw).symm
      rcases this with h | h
      · exact h ▸ hv
      · exact h ▸ hwn
  · intro a b hab han
    rw [mem_trussInit_edges]
    constructor
    · rintro ⟨v, hv, w, hw, hcw⟩
      have hvw : v ≠ w := fun hvw => (hwf.2 v hv).2.1 (hvw ▸ hw)
      rcases (canonPair_eq_iff hab).1 hcw with ⟨rfl, rfl⟩ | ⟨rfl, rfl⟩
      · exact ⟨hw, Finset.not_mem_empty _⟩
      · exact ⟨((hwf.2 v hv).2.2 w hw).2, Finset.not_mem_empty _⟩
    · rintro ⟨hba, _⟩
      exact ⟨a, han, b, hba, canonPair_of_lt hab⟩

theorem truss_fold_extends (k : Nat) :
    ∀ (es : List (Nat × Nat)) (acc : (Nat → List Nat) × List (Nat × Nat)),
      ∃ suff, (es.foldl (trussSweepStep k) acc).2 = acc.2 ++ suff := by
  intro es
  induction es with
  | nil => intro acc; exact ⟨[], by simp⟩
  | cons e rest ih =>
    intro acc
    rw [List.foldl_cons]
    by_cases hc : interCount (acc.1 e.1) (acc.1 e.2) < wsub k 2
    · have hstep : trussSweepStep k acc e =
          (fun v => if v = e.1 then ((acc.1 e.1).erase e.2)
            else if v = e.2 then ((acc.1 e.2).erase e.1) else acc.1 v, acc.2 ++ [e]) := by
        unfold trussSweepStep
        rw [if_pos hc]
      rw [hstep]
      obtain ⟨suff, hsuff⟩ := ih
        (fun v => if v = e.1 then ((acc.1 e.1).erase e.2)
          else if v = e.2 then ((acc.1 e.2).erase e.1) else acc.1 v, acc.2 ++ [e])
      refine ⟨e :: suff, ?_⟩
      rw [hsuff]
      simp
    · have hstep : trussSweepStep k acc e = acc := by
        unfold trussSweepStep
        rw [if_neg hc]
      rw [hstep]
      exact ih acc

theorem truss_sweep_fold_spec (g : SGraph) (k : Nat) :
    ∀ (es : List (Nat × Nat)) (nbrs : Nat → List Nat) (rem : List (Nat × Nat)),
      (∀ e ∈ es, e.1 < e.2 ∧ e.1 ∈ g.nodes ∧ e.2 ∈ g.nodes) →
      (∀ u ∈ g.nodes, (nbrs u).Nodup) →
      ∃ newRem : List (Nat × Nat),
        (es.foldl (trussSweepStep k) (nbrs, rem)).2 = rem ++ newRem ∧
        (∀ e ∈ newRem, e ∈ es) ∧
        (∀ u ∈ g.nodes, ((es.foldl (trussSweepStep k) (nbrs, rem)).1 u).Nodup) ∧
        (∀ u ∈ g.nodes, ∀ w,
          (w ∈ (es.foldl (trussSweepStep k) (nbrs, rem)).1 u ↔
            (w ∈ nbrs u ∧ canonPair u w ∉ newRem))) := by
  intro es
  induction es with
  | nil =>
    intro nbrs rem _ hnd
    refine ⟨[], by simp, by simp, hnd, ?_⟩
    intro u _ w
    simp
  | cons e rest ih =>
    intro nbrs rem hcanon hnd
    have he := hcanon e (List.mem_cons_self e rest)
    have hee : e.1 ≠ e.2 := Nat.ne_of_lt he.1
    have hcrest : ∀ f ∈ rest, f.1 < f.2 ∧ f.1 ∈ g.nodes ∧ f.2 ∈ g.nodes :=
      fun f hf => hcanon f (List.mem_cons_of_mem e hf)
    have hcaniff : ∀ a b : Nat, canonPair a b = e ↔
        ((a = e.1 ∧ b = e.2) ∨ (a = e.2 ∧ b = e.1)) := by
      intro a b
      have h1 : canonPair a b = e ↔ canonPair a b = (e.1, e.2) := by
        constructor
        · intro h; rw [h]
        · intro h; rw [h]
      rw [h1]
      exact canonPair_eq_iff he.1
    rw [List.foldl_cons]
    by_cases hc : interCount (nbrs e.1) (nbrs e.2) < wsub k 2
    · have hstep : trussSweepStep k (nbrs, rem) e =
          (fun v => if v = e.1 then ((nbrs e.1).erase e.2)
            else if v = e.2 then ((nbrs e.2).erase e.1) else nbrs v, rem ++ [e]) := by
        unfold trussSweepStep
        rw [if_pos hc]
      rw [hstep]
      have hnd' : ∀ u ∈ g.nodes,
          ((fun v => if v = e.1 then ((nbrs e.1).erase e.2)
            else if v = e.2 then ((nbrs e.2).erase e.1) else nbrs v) u).Nodup := by
        intro u hu
        dsimp only
        by_cases h1 : u = e.1
        · rw [if_pos h1]
          exact (hnd e.1 (h1 ▸ hu)).erase _
        · rw [if_neg h1]
          by_cases h2 : u = e.2
          · rw [if_pos h2]
            exact (hnd e.2 (h2 ▸ hu)).erase _
          · rw [if_neg h2]
            exact hnd u hu
      obtain ⟨newRem2, hr1, hr2, hr3, hr4⟩ := ih
        (fun v => if v = e.1 then ((nbrs e.1).erase e.2)
          else if v = e.2 then ((nbrs e.2).erase e.1) else nbrs v) (rem ++ [e]) hcrest hnd'
      have hmem2 : ∀ u ∈ g.nodes, ∀ w,
          (w ∈ (fun v => if v = e.1 then ((nbrs e.1).erase e.2)
            else if v = e.2 then ((nbrs e.2).erase e.1) else nbrs v) u ↔
            (w ∈ nbrs u ∧ canonPair u w ≠ e)) := by
        intro u hu w
        by_cases h1 : u = e.1
        · subst h1
          dsimp only
          rw [if_pos rfl, List.Nodup.mem_erase_iff (hnd e.1 hu)]
          constructor
          · rintro ⟨hne, hm⟩
            refine ⟨hm, fun hcan2 => ?_⟩
            rcases (hcaniff e.1 w).1 hcan2 with ⟨_, hw2⟩ | ⟨hu2, _⟩
            · exact hne hw2
            · exact hee hu2
          · rintro ⟨hm, hcan⟩
            exact ⟨fun hw2 => hcan ((hcaniff e.1 w).2 (Or.inl ⟨rfl, hw2⟩)), hm⟩
        · by_cases h2 : u = e.2
          · subst h2
            dsimp only
            rw [if_neg h1, if_pos rfl, List.Nodup.mem_erase_iff (hnd e.2 hu)]
            constructor
            · rintro ⟨hne, hm⟩
              refine ⟨hm, fun hcan2 => ?_⟩
              rcases (hcaniff e.2 w).1 hcan2 with ⟨hu1, _⟩ | ⟨_, hw1⟩
              · exact h1 hu1
              · exact hne hw1
            · rintro ⟨hm, hcan⟩
              exact ⟨fun hw1 => hcan ((hcaniff e.2 w).2 (Or.inr ⟨rfl, hw1⟩)), hm⟩
          · dsimp only
            rw [if_neg h1, if_neg h2]
            constructor
            · intro hm
              refine ⟨hm, fun hcan2 => ?_⟩
              rcases (hcaniff u w).1 hcan2 with ⟨hu1, _⟩ | ⟨hu2, _⟩
              · exact h1 hu1
              · exact h2 hu2
            · rintro ⟨hm, _⟩
              exact hm
      refine ⟨e :: newRem2, ?_, ?_, hr3, ?_⟩
      · rw [hr1]
        simp
      · intro f hf
        rcases List.mem_cons.1 hf with rfl | hf
        · exact List.mem_cons_self f rest
        · exact List.mem_cons_of_mem e (hr2 f hf)
      · intro u hu w
        rw [hr4 u hu w, hmem2 u hu w]
        constructor
        · rintro ⟨⟨hm, hne⟩, hnr⟩
          refine ⟨hm, fun hmem => ?_⟩
          rcases List.mem_cons.1 hmem with h | h
          · exact hne h
          · exact hnr h
        · rintro ⟨hm, hnr⟩
          exact ⟨⟨hm, fun h => hnr (h ▸ List.mem_cons_self _ _)⟩,
            fun h => hnr (List.mem_cons_of_mem _ h)⟩
    · have hstep : trussSweepStep k (nbrs, rem) e = (nbrs, rem) := by
        unfold trussSweepStep
        rw [if_neg hc]
      rw [hstep]
      obtain ⟨newRem2, hr1, hr2, hr3, hr4⟩ := ih nbrs rem hcrest hnd
      exact ⟨newRem2, hr1, fun f hf => List.mem_cons_of_mem e (hr2 f hf), hr3, hr4⟩

theorem truss_fold_no_change (k : Nat) :
    ∀ (es : List (Nat × Nat)) (nbrs : Nat → List Nat) (rem : List (Nat × Nat)),
      (es.foldl (trussSweepStep k) (nbrs, rem)).2 = rem →
      es.foldl (trussSweepStep k) (nbrs, rem) = (nbrs, rem) ∧
      ∀ e ∈ es, ¬ (interCount (nbrs e.1) (nbrs e.2) < wsub k 2) := by
  intro es
  induction es with
  | nil =>
    intro nbrs rem _
    exact ⟨rfl, by simp⟩
  | cons e rest ih =>
    intro nbrs rem hval
    rw [List.foldl_cons] at hval ⊢
    by_cases hc : interCount (nbrs e.1) (nbrs e.2) < wsub k 2
    · exfalso
      have hstep : trussSweepStep k (nbrs, rem) e =
          (fun v => if v = e.1 then ((nbrs e.1).erase e.2)
            else if v = e.2 then ((nbrs e.2).erase e.1) else nbrs v, rem ++ [e]) := by
        unfold trussSweepStep
        rw [if_pos hc]
      rw [hstep] at hval
      obtain ⟨suff, hsuff⟩ := truss_fold_extends k rest
        (fun v => if v = e.1 then ((nbrs e.1).erase e.2)
          else if v = e.2 then ((nbrs e.2).erase e.1) else nbrs v, rem ++ [e])
      rw [hval] at hsuff
      have := congrArg List.length hsuff
      simp at this
    · have hstep : trussSweepStep k (nbrs, rem) e = (nbrs, rem) := by
        unfold trussSweepStep
        rw [if_neg hc]
      rw [hstep] at hval ⊢
      obtain ⟨hfix, hall⟩ := ih nbrs rem hval
      refine ⟨hfix, ?_⟩
      intro f hf
      rcases List.mem_cons.1 hf with rfl | hf
      · exact hc
      · exact hall f hf

theorem trussSweep_spec (g : SGraph) (ign : Finset Nat) (k : Nat) (st : TrussState)
    (hinv : TrussInv g ign st) :
    TrussInv g ign (trussSweep k st).1 ∧
    ((trussSweep k st).2 = false → (trussSweep k st).1 = st ∧
      ∀ e ∈ st.edges, ¬ (interCount (st.neighbors e.1) (st.neighbors e.2) < wsub k 2)) ∧
    ((trussSweep k st).2 = true → (trussSweep k st).1.edges.length < st.edges.length) := by
  obtain ⟨hnd, hR, hS1, hS2⟩ := hinv
  obtain ⟨newRem, hr1, hr2, hr3, hr4⟩ :=
    truss_sweep_fold_spec g k st.edges st.neighbors [] hS1 hnd
  have hrem : (st.edges.foldl (trussSweepStep k) (st.neighbors, [])).2 = newRem := by
    rw [hr1]; rfl
  refine ⟨⟨?_, ?_, ?_, ?_⟩, ?_, ?_⟩
  · intro u hu
    exact hr3 u hu
  · intro u hu w
    show w ∈ (st.edges.foldl (trussSweepStep k) (st.neighbors, [])).1 u ↔ _
    rw [hr4 u hu w, hR u hu w]
    show _ ↔ (w ∈ g.adj u ∧ w ∉ ign ∧ canonPair u w ∉ st.ignoreEdges ∪
      (st.edges.foldl (trussSweepStep k) (st.neighbors, [])).2.toFinset)
    rw [hrem]
    rw [Finset.mem_union, List.mem_toFinset]
    tauto
  · intro e he
    have : e ∈ st.edges := List.mem_of_mem_filter he
    exact hS1 e this
  · intro a b hab han
    show (a, b) ∈ st.edges.filter
      (fun e => decide (e ∉ (st.edges.foldl (trussSweepStep k) (st.neighbors, [])).2)) ↔ _
    rw [List.mem_filter]
    rw [hS2 a b hab han]
    show _ ↔ (b ∈ g.adj a ∧ (a, b) ∉ st.ignoreEdges ∪
      (st.edges.foldl (trussSweepStep k) (st.neighbors, [])).2.toFinset)
    rw [hrem]
    simp only [decide_eq_true_eq, Finset.mem_union, List.mem_toFinset]
    tauto
  · intro hfalse
    have hempt : (st.edges.foldl (trussSweepStep k) (st.neighbors, [])).2.isEmpty = true := by
      have : (trussSweep k st).2 =
          !(st.edges.foldl (trussSweepStep k) (st.neighbors, [])).2.isEmpty := rfl
      rw [this] at hfalse
      simpa using hfalse
    have hnil : (st.edges.foldl (trussSweepStep k) (st.neighbors, [])).2 = [] :=
      List.isEmpty_iff.1 hempt
    obtain ⟨hfix, hall⟩ := truss_fold_no_change k st.edges st.neighbors [] hnil
    constructor
    · show TrussState.mk (st.edges.foldl (trussSweepStep k) (st.neighbors, [])).1
        (st.edges.filter (fun e =>
          decide (e ∉ (st.edges.foldl (trussSweepStep k) (st.neighbors, [])).2)))
        (st.ignoreEdges ∪
          (st.edges.foldl (trussSweepStep k) (st.neighbors, [])).2.toFinset) = st
      rw [hfix]
      cases st
      simp
    · exact hall
  · intro htrue
    have hne : newRem ≠ [] := by
      intro hnil
      have hfl : (trussSweep k st).2 =
          !(st.edges.foldl (trussSweepStep k) (st.neighbors, [])).2.isEmpty := rfl
      rw [hfl, hrem, hnil] at htrue
      simp at htrue
    obtain ⟨f, tl, hnr⟩ : ∃ f tl, newRem = f :: tl := by
      cases hnr2 : newRem with
      | nil => exact absurd hnr2 hne
      | cons f tl => exact ⟨f, tl, rfl⟩
    have hfmem : f ∈ newRem := by rw [hnr]; exact List.mem_cons_self f tl
    have hf : f ∈ st.edges := hr2 f hfmem
    have hlt := filter_length_lt st.edges
      (fun e => decide (e ∉ (st.edges.foldl (trussSweepStep k) (st.neighbors, [])).2))
      (fun _ => true) f hf rfl
      (by
        simp only [decide_eq_false_iff_not, not_not]
        rw [hrem]
        exact hfmem)
      (fun x _ _ => rfl)
    have htriv : st.edges.filter (fun _ => true) = st.edges := by simp
    rw [htriv] at hlt
    exact hlt

theorem trussLoop_spec (g : SGraph) (ign : Finset Nat) (k : Nat) :
    ∀ (fuel : Nat) (st : TrussState), TrussInv g ign st → st.edges.length < fuel →
      TrussInv g ign (trussLoop k fuel st) ∧
      ∀ e ∈ (trussLoop k fuel st).edges,
        ¬ (interCount ((trussLoop k fuel st).neighbors e.1)
            ((trussLoop k fuel st).neighbors e.2) < wsub k 2) := by
  intro fuel
  induction fuel with
  | zero =>
    intro st _ hlen
    omega
  | succ fuel ih =>
    intro st hinv hlen
    obtain ⟨hinv2, hfalse, htrue⟩ := trussSweep_spec g ign k st hinv
    have hunfold : trussLoop k (fuel + 1) st =
        (if (trussSweep k st).2 then trussLoop k fuel (trussSweep k st).1
         else (trussSweep k st).1) := rfl
    rw [hunfold]
    by_cases hch : (trussSweep k st).2 = true
    · rw [if_pos hch]
      have hlen2 := htrue hch
      exact ih (trussSweep k st).1 hinv2 (by omega)
    · rw [if_neg hch]
      have hch2 : (trussSweep k st).2 = false := by simpa using hch
      obtain ⟨hfix, hall⟩ := hfalse hch2
      rw [hfix]
      exact ⟨hinv, hall⟩

/-! ## Connected components cut at ignored edges (C7) -/

theorem expandCut_subset_self (g : SGraph) (ig : Finset (Nat × Nat)) (s : Finset Nat) :
    s ⊆ expandCut g ig s :=
  fun _x hx => Finset.mem_union_left _ hx

theorem expandCut_subset_nodes (g : SGraph) (hwf : WF g) (ig : Finset (Nat × Nat))
    (s : Finset Nat) (hs : s ⊆ g.nodes.toFinset) :
    expandCut g ig s ⊆ g.nodes.toFinset := by
  intro x hx
  rcases Finset.mem_union.1 hx with h | h
  · exact hs h
  · rcases Finset.mem_biUnion.1 h with ⟨u, hu, hxu⟩
    have hun : u ∈ g.nodes := List.mem_toFinset.1 (hs hu)
    have hxadj : x ∈ g.adj u := List.mem_of_mem_filter (List.mem_toFinset.1 hxu)
    exact List.mem_toFinset.2 (((hwf.2 u hun).2.2 x hxadj).1)

theorem iterate_expandCut_subset_nodes (g : SGraph) (hwf : WF g) (ig : Finset (Nat × Nat))
    (v : Nat) (hv : v ∈ g.nodes) :
    ∀ i, (expandCut g ig)^[i] {v} ⊆ g.nodes.toFinset := by
  intro i
  induction i with
  | zero =>
    intro x hx
    simp only [Function.iterate_zero, id_eq, Finset.mem_singleton] at hx
    subst hx
    exact List.mem_toFinset.2 hv
  | succ i ih =>
    rw [Function.iterate_succ_apply']
    exact expandCut_subset_nodes g hwf ig _ ih

theorem reachCut_fixed (g : SGraph) (hwf : WF g) (ig : Finset (Nat × Nat)) (v : Nat)
    (hv : v ∈ g.nodes) :
    expandCut g ig (reachCut g ig v) = reachCut g ig v := by
  set n := g.nodes.length with hn
  have hex : ∃ i, i ≤ n ∧ (expandCut g ig)^[i + 1] {v} = (expandCut g ig)^[i] {v} := by
    by_contra hcon
    push_neg at hcon
    have hgrow : ∀ i, i ≤ n + 1 → i + 1 ≤ ((expandCut g ig)^[i] {v}).card := by
      intro i
      induction i with
      | zero =>
        intro _
        simp
      | succ i ih =>
        intro hi
        have hih := ih (by omega)
        have hne := hcon i (by omega)
        have hsub : (expandCut g ig)^[i] {v} ⊆ (expandCut g ig)^[i + 1] {v} := by
          rw [Function.iterate_succ_apply']
          exact expandCut_subset_self g ig _
        have hlt : ((expandCut g ig)^[i] {v}).card < ((expandCut g ig)^[i + 1] {v}).card :=
          Finset.card_lt_card (Finset.ssubset_iff_subset_ne.2 ⟨hsub, fun h => hne h.symm⟩)
        omega
    have hbig := hgrow (n + 1) (le_refl _)
    have hsmall : ((expandCut g ig)^[n + 1] {v}).card ≤ n := by
      calc ((expandCut g ig)^[n + 1] {v}).card
          ≤ g.nodes.toFinset.card :=
            Finset.card_le_card (iterate_expandCut_subset_nodes g hwf ig v hv (n + 1))
        _ ≤ n := by rw [hn]; exact List.toFinset_card_le g.nodes
    omega
  obtain ⟨i, hi, hfix⟩ := hex
  have hstab : (expandCut g ig)^[n] {v} = (expandCut g ig)^[i] {v} := by
    have h1 : n = (n - i) + i := by omega
    rw [h1, Function.iterate_add_apply]
    exact Function.iterate_fixed
      (by rw [← Function.iterate_succ_apply' (expandCut g ig) i {v}]; exact hfix) (n - i)
  show expandCut g ig ((expandCut g ig)^[n] {v}) = (expandCut g ig)^[n] {v}
  rw [hstab, ← Function.iterate_succ_apply' (expandCut g ig) i {v}]
  exact hfix

theorem reachCut_closed (g : SGraph) (hwf : WF g) (ig : Finset (Nat × Nat)) (v : Nat)
    (hv : v ∈ g.nodes) (a b : Nat) (ha : a ∈ reachCut g ig v)
    (hab : b ∈ g.adj a) (hig : canonPair a b ∉ ig) :
    b ∈ reachCut g ig v := by
  rw [← reachCut_fixed g hwf ig v hv]
  apply Finset.mem_union_right
  apply Finset.mem_biUnion.2
  exact ⟨a, ha, List.mem_toFinset.2 (List.mem_filter.2 ⟨hab, decide_eq_true hig⟩)⟩

theorem components_fold_adj_eq (g : SGraph) (hwf : WF g) (ig : Finset (Nat × Nat)) :
    ∀ (l : List Nat) (acc : (Nat → Option Nat) × Nat),
      (∀ x ∈ l, x ∈ g.nodes) →
      (∀ a ∈ g.nodes, ∀ b ∈ g.adj a, canonPair a b ∉ ig → acc.1 a = acc.1 b) →
      ∀ a ∈ g.nodes, ∀ b ∈ g.adj a, canonPair a b ∉ ig →
        (l.foldl
          (fun (acc : (Nat → Option Nat) × Nat) v =>
            if (acc.1 v).isSome then acc
            else (fun w => if w ∈ reachCut g ig v ∧ acc.1 w = none then some acc.2 else acc.1 w,
                  acc.2 + 1)) acc).1 a =
        (l.foldl
          (fun (acc : (Nat → Option Nat) × Nat) v =>
            if (acc.1 v).isSome then acc
            else (fun w => if w ∈ reachCut g ig v ∧ acc.1 w = none then some acc.2 else acc.1 w,
                  acc.2 + 1)) acc).1 b := by
  intro l
  induction l with
  | nil =>
    intro acc _ hinv a ha b hb hig2
    exact hinv a ha b hb hig2
  | cons v t ih =>
    intro acc hl hinv a ha b hb hig2
    rw [List.foldl_cons]
    have hv : v ∈ g.nodes := hl v (List.mem_cons_self v t)
    refine ih _ (fun x hx => hl x (List.mem_cons_of_mem v hx)) ?_ a ha b hb hig2
    intro a' ha' b' hb' hig'
    have heq := hinv a' ha' b' hb' hig'
    have hba' : b' ≠ a' := by
      intro h
      subst h
      exact (hwf.2 _ ha').2.1 hb'
    by_cases hs : (acc.1 v).isSome = true
    · rw [if_pos hs]
      exact heq
    · rw [if_neg hs]
      show (if a' ∈ reachCut g ig v ∧ acc.1 a' = none then some acc.2 else acc.1 a') =
        (if b' ∈ reachCut g ig v ∧ acc.1 b' = none then some acc.2 else acc.1 b')
      by_cases hra : a' ∈ reachCut g ig v ∧ acc.1 a' = none
      · have hrb : b' ∈ reachCut g ig v ∧ acc.1 b' = none := by
          refine ⟨reachCut_closed g hwf ig v hv a' b' hra.1 hb' hig', ?_⟩
          rw [← heq]
          exact hra.2
        rw [if_pos hra, if_pos hrb]
      · have hrb : ¬ (b' ∈ reachCut g ig v ∧ acc.1 b' = none) := by
          intro hrb
          apply hra
          constructor
          · have hba : a' ∈ g.adj b' := ((hwf.2 a' ha').2.2 b' hb').2
            have higba : canonPair b' a' ∉ ig := by
              rw [canonPair_comm b' a' hba']
              exact hig'
            exact reachCut_closed g hwf ig v hv b' a' hrb.1 hba higba
          · rw [heq]
            exact hrb.2
        rw [if_neg hra, if_neg hrb]
        exact heq

theorem componentsMembership_adj_eq (g : SGraph) (hwf : WF g) (ig : Finset (Nat × Nat))
    (a : Nat) (ha : a ∈ g.nodes) (b : Nat) (hb : b ∈ g.adj a)
    (hig : canonPair a b ∉ ig) :
    (componentsMembership g ig).1 a = (componentsMembership g ig).1 b :=
  components_fold_adj_eq g hwf ig g.nodes (fun _ => none, 0)
    (fun _ hx => hx) (fun _ _ _ _ _ => rfl) a ha b hb hig

/-! ## Removed nodes of the k-core pass have small live degree (C7) -/

theorem kc_step_removed_mono (g : SGraph) (k : Nat) (st : KCState) :
    st.removed ⊆ (kCoresStep g k st).removed := by
  cases hq : st.queue with
  | nil =>
    have hstep : kCoresStep g k st = st := by
      unfold kCoresStep; rw [hq]
    rw [hstep]
  | cons id rest =>
    by_cases hnum : st.num id < (k : Int)
    · have hstep : kCoresStep g k st =
          ⟨((g.adj id).foldl (kCoresEdgeStep id (insert id st.removed)) (rest, st.num)).1,
           insert id st.removed,
           ((g.adj id).foldl (kCoresEdgeStep id (insert id st.removed)) (rest, st.num)).2⟩ := by
        unfold kCoresStep
        rw [hq]
        simp only [hnum, if_pos]
      rw [hstep]
      exact Finset.subset_insert id st.removed
    · have hstep : kCoresStep g k st = ⟨rest, st.removed, st.num⟩ := by
        unfold kCoresStep
        rw [hq]
        simp only [hnum, if_neg, ite_false]
      rw [hstep]

theorem kc_removed_mono (g : SGraph) (k : Nat) (R0 : Finset Nat) :
    ∀ n m, (kCoresRun g k R0 n).removed ⊆ (kCoresRun g k R0 (n + m)).removed := by
  intro n m
  induction m with
  | zero => exact Finset.Subset.refl _
  | succ m ih =>
    have hstep : kCoresRun g k R0 (n + m + 1) = kCoresStep g k (kCoresRun g k R0 (n + m)) := by
      show (kCoresStep g k)^[n + m + 1] (kCoresInit g R0) = _
      rw [Function.iterate_succ_apply']
      rfl
    show (kCoresRun g k R0 n).removed ⊆ (kCoresRun g k R0 (n + m + 1)).removed
    rw [hstep]
    exact ih.trans (kc_step_removed_mono g k _)

theorem kc_removed_origin (g : SGraph) (k : Nat) (v : Nat) :
    ∀ N, v ∈ (kCoresRun g k ∅ N).removed →
      ∃ n, n < N ∧ v ∉ (kCoresRun g k ∅ n).removed ∧
        v ∈ (kCoresRun g k ∅ (n + 1)).removed := by
  intro N
  induction N with
  | zero =>
    intro hv
    have h0 : (kCoresRun g k ∅ 0).removed = ∅ := rfl
    rw [h0] at hv
    exact absurd hv (Finset.not_mem_empty v)
  | succ N ih =>
    intro hv
    by_cases hN : v ∈ (kCoresRun g k ∅ N).removed
    · obtain ⟨n, hn, h1, h2⟩ := ih hN
      exact ⟨n, Nat.lt_succ_of_lt hn, h1, h2⟩
    · exact ⟨N, Nat.lt_succ_self N, hN, hv⟩

theorem liveDeg_anti (g : SGraph) (R1 R2 : Finset Nat) (v : Nat) (h : R1 ⊆ R2) :
    liveDeg g R2 v ≤ liveDeg g R1 v := by
  apply filter_length_mono
  intro x _ hx
  simp only [decide_eq_true_eq] at hx ⊢
  exact fun hx1 => hx (h hx1)

theorem kc_ignored_liveDeg_lt (g : SGraph) (k : Nat) (hwf : WF g) (v : Nat)
    (hv : v ∈ (kCoresRun g k ∅ (kCoresFuel g)).removed) :
    liveDeg g (kCoresRun g k ∅ (kCoresFuel g)).removed v < k := by
  obtain ⟨n, hn, h1, h2⟩ := kc_removed_origin g k v (kCoresFuel g) hv
  have hstep : kCoresRun g k ∅ (n + 1) = kCoresStep g k (kCoresRun g k ∅ n) := by
    show (kCoresStep g k)^[n + 1] (kCoresInit g ∅) = _
    rw [Function.iterate_succ_apply']
    rfl
  have hlt : liveDeg g (kCoresRun g k ∅ n).removed v < k := by
    refine kc_step_new_removed g k (kCoresRun g k ∅ n) v (kCInv_run g k ∅ hwf n) ?_ h1
    rw [← hstep]
    exact h2
  have hsub : (kCoresRun g k ∅ n).removed ⊆ (kCoresRun g k ∅ (kCoresFuel g)).removed := by
    have hmono := kc_removed_mono g k ∅ n (kCoresFuel g - n)
    have heq : n + (kCoresFuel g - n) = kCoresFuel g := by omega
    rw [heq] at hmono
    exact hmono
  calc liveDeg g (kCoresRun g k ∅ (kCoresFuel g)).removed v
      ≤ liveDeg g (kCoresRun g k ∅ n).removed v := liveDeg_anti g _ _ v hsub
    _ < k := hlt

/-! ## Membership in the collected trusses (C7) -/

theorem mem_buildTruss_inner (st : TrussState) (compIdx : Nat → Option Nat) (idx : Nat)
    (id : Nat) (x : Nat × Nat) :
    ∀ (ns : List Nat) (acc : List (Nat × Nat)),
      (x ∈ ns.foldl (fun acc nid =>
          if compIdx nid = some idx ∧ id < nid ∧
              (id, nid) ∉ st.ignoreEdges ∧ (id, nid) ∈ st.edges then
            insertEdge (id, nid) acc
          else acc) acc ↔
        (∃ nid ∈ ns, (compIdx nid = some idx ∧ id < nid ∧
            (id, nid) ∉ st.ignoreEdges ∧ (id, nid) ∈ st.edges) ∧ x = (id, nid)) ∨ x ∈ acc) := by
  intro ns
  induction ns with
  | nil =>
    intro acc
    simp
  | cons nid t ih =>
    intro acc
    rw [List.foldl_cons]
    by_cases hc : compIdx nid = some idx ∧ id < nid ∧
        (id, nid) ∉ st.ignoreEdges ∧ (id, nid) ∈ st.edges
    · rw [if_pos hc, ih]
      constructor
      · rintro (⟨w, hw, hcw, hxw⟩ | hxa)
        · exact Or.inl ⟨w, List.mem_cons_of_mem nid hw, hcw, hxw⟩
        · rcases mem_insertEdge.1 hxa with rfl | hxa2
          · exact Or.inl ⟨nid, List.mem_cons_self nid t, hc, rfl⟩
          · exact Or.inr hxa2
      · rintro (⟨w, hw, hcw, hxw⟩ | hxa)
        · rcases List.mem_cons.1 hw with rfl | hw2
          · exact Or.inr (mem_insertEdge.2 (Or.inl hxw))
          · exact Or.inl ⟨w, hw2, hcw, hxw⟩
        · exact Or.inr (mem_insertEdge.2 (Or.inr hxa))
    · rw [if_neg hc, ih]
      constructor
      · rintro (⟨w, hw, hcw, hxw⟩ | hxa)
        · exact Or.inl ⟨w, List.mem_cons_of_mem nid hw, hcw, hxw⟩
        · exact Or.inr hxa
      · rintro (⟨w, hw, hcw, hxw⟩ | hxa)
        · rcases List.mem_cons.1 hw with rfl | hw2
          · exact absurd hcw hc
          · exact Or.inl ⟨w, hw2, hcw, hxw⟩
        · exact Or.inr hxa

theorem mem_buildTruss_outer (_g : SGraph) (st : TrussState) (compIdx : Nat → Option Nat)
    (idx : Nat) (x : Nat × Nat) :
    ∀ (l : List Nat) (acc : List (Nat × Nat)),
      (x ∈ l.foldl (fun acc id =>
          if compIdx id = some idx then
            (st.neighbors id).foldl (fun acc nid =>
              if compIdx nid = some idx ∧ id < nid ∧
                  (id, nid) ∉ st.ignoreEdges ∧ (id, nid) ∈ st.edges then
                insertEdge (id, nid) acc
              else acc) acc
          else acc) acc ↔
        (∃ id ∈ l, compIdx id = some idx ∧ ∃ nid ∈ st.neighbors id,
          (compIdx nid = some idx ∧ id < nid ∧ (id, nid) ∉ st.ignoreEdges ∧
            (id, nid) ∈ st.edges) ∧ x = (id, nid)) ∨ x ∈ acc) := by
  intro l
  induction l with
  | nil =>
    intro acc
    simp
  | cons id t ih =>
    intro acc
    rw [List.foldl_cons]
    by_cases hc : compIdx id = some idx
    · rw [if_pos hc, ih, mem_buildTruss_inner st compIdx idx id x (st.neighbors id) acc]
      constructor
      · rintro (⟨w, hw, hcw, hrest⟩ | (⟨nid, hnid, hcond, hx⟩ | hxa))
        · exact Or.inl ⟨w, List.mem_cons_of_mem id hw, hcw, hrest⟩
        · exact Or.inl ⟨id, List.mem_cons_self id t, hc, nid, hnid, hcond, hx⟩
        · exact Or.inr hxa
      · rintro (⟨w, hw, hcw, hrest⟩ | hxa)
        · rcases List.mem_cons.1 hw with rfl | hw2
          · exact Or.inr (Or.inl hrest)
          · exact Or.inl ⟨w, hw2, hcw, hrest⟩
        · exact Or.inr (Or.inr hxa)
    · rw [if_neg hc, ih]
      constructor
      · rintro (⟨w, hw, hcw, hrest⟩ | hxa)
        · exact Or.inl ⟨w, List.mem_cons_of_mem id hw, hcw, hrest⟩
        · exact Or.inr hxa
      · rintro (⟨w, hw, hcw, hrest⟩ | hxa)
        · rcases List.mem_cons.1 hw with rfl | hw2
          · exact absurd hcw hc
          · exact Or.inl ⟨w, hw2, hcw, hrest⟩
        · exact Or.inr hxa

theorem mem_buildTruss (g : SGraph) (st : TrussState) (compIdx : Nat → Option Nat)
    (idx : Nat) (x : Nat × Nat) :
    x ∈ buildTruss g st compIdx idx ↔
      ∃ id ∈ g.nodes, compIdx id = some idx ∧ ∃ nid ∈ st.neighbors id,
        (compIdx nid = some idx ∧ id < nid ∧ (id, nid) ∉ st.ignoreEdges ∧
          (id, nid) ∈ st.edges) ∧ x = (id, nid) := by
  constructor
  · intro hx
    rcases (mem_buildTruss_outer g st compIdx idx x g.nodes []).1 hx with h | h
    · exact h
    · exact absurd h (List.not_mem_nil x)
  · intro hx
    exact (mem_buildTruss_outer g st compIdx idx x g.nodes []).2 (Or.inl hx)

theorem nodup_subset_length_le {l1 l2 : List Nat} (h1 : l1.Nodup)
    (hsub : ∀ x ∈ l1, x ∈ l2) : l1.length ≤ l2.length := by
  have hc1 : l1.toFinset.card = l1.length := List.toFinset_card_of_nodup h1
  have hsub2 : l1.toFinset ⊆ l2.toFinset := fun x hx =>
    List.mem_toFinset.2 (hsub x (List.mem_toFinset.1 hx))
  calc l1.length = l1.toFinset.card := hc1.symm
    _ ≤ l2.toFinset.card := Finset.card_le_card hsub2
    _ ≤ l2.length := List.toFinset_card_le l2

theorem buildTruss_canon_mem (g : SGraph) (hwf : WF g) (ign : Finset Nat)
    (st : TrussState) (hinv : TrussInv g ign st) (idx : Nat)
    (a w : Nat) (ha : a ∈ g.nodes) (hanign : a ∉ ign)
    (hw : w ∈ st.neighbors a)
    (hca : (componentsMembership g st.ignoreEdges).1 a = some idx) :
    canonPair a w ∈ buildTruss g st (componentsMembership g st.ignoreEdges).1 idx := by
  have hR := hinv.2.1
  have hS2 := hinv.2.2.2
  have hwadj : w ∈ g.adj a := ((hR a ha w).1 hw).1
  have hwcan : canonPair a w ∉ st.ignoreEdges := ((hR a ha w).1 hw).2.2
  have hwnodes : w ∈ g.nodes := ((hwf.2 a ha).2.2 w hwadj).1
  have hwa : w ≠ a := by
    intro h
    subst h
    exact (hwf.2 _ ha).2.1 hwadj
  have hcw : (componentsMembership g st.ignoreEdges).1 w = some idx := by
    rw [← componentsMembership_adj_eq g hwf st.ignoreEdges a ha w hwadj hwcan]
    exact hca
  rcases Nat.lt_or_ge a w with haw | haw
  · rw [canonPair_of_lt haw]
    apply (mem_buildTruss g st _ idx (a, w)).2
    refine ⟨a, ha, hca, w, hw, ⟨hcw, haw, ?_, ?_⟩, rfl⟩
    · rw [← canonPair_of_lt haw]
      exact hwcan
    · rw [hS2 a w haw ha]
      refine ⟨hwadj, ?_⟩
      rw [← canonPair_of_lt haw]
      exact hwcan
  · have hwa2 : w < a := by omega
    have hcanright : canonPair a w = (w, a) := by
      rw [canonPair_comm a w (fun h => hwa h.symm)]
      exact canonPair_of_lt hwa2
    have hanbr : a ∈ st.neighbors w := by
      rw [hR w hwnodes a]
      refine ⟨((hwf.2 a ha).2.2 w hwadj).2, hanign, ?_⟩
      rw [canonPair_comm w a hwa]
      exact hwcan
    rw [hcanright]
    apply (mem_buildTruss g st _ idx (w, a)).2
    refine ⟨w, hwnodes, hcw, a, hanbr, ⟨hca, hwa2, ?_, ?_⟩, rfl⟩
    · rw [← hcanright]
      exact hwcan
    · rw [hS2 w a hwa2 hwnodes]
      refine ⟨((hwf.2 a ha).2.2 w hwadj).2, ?_⟩
      rw [← hcanright]
      exact hwcan

theorem buildTruss_support (g : SGraph) (hwf : WF g) (k : Nat) (ign : Finset Nat)
    (hk : 2 ≤ k) (hkb : k < 2 ^ 64)
    (hignLive : ∀ u ∈ ign, liveDeg g ign u < k - 1)
    (st : TrussState) (hinv : TrussInv g ign st)
    (hfix : ∀ e ∈ st.edges,
      ¬ interCount (st.neighbors e.1) (st.neighbors e.2) < wsub k 2)
    (idx : Nat) :
    ∀ e, e ∈ buildTruss g st (componentsMembership g st.ignoreEdges).1 idx →
      wsub k 2 ≤ trussSupport g
        (buildTruss g st (componentsMembership g st.ignoreEdges).1 idx) e := by
  have hnd := hinv.1
  have hR := hinv.2.1
  intro e he
  rcases (mem_buildTruss g st ((componentsMembership g st.ignoreEdges).1) idx e).1 he with
    ⟨u, hu, hcu, v, hv, ⟨hcv, huv, hie, hedge⟩, rfl⟩
  have hvadj : v ∈ g.adj u := ((hR u hu v).1 hv).1
  have hvign : v ∉ ign := ((hR u hu v).1 hv).2.1
  have hvnodes : v ∈ g.nodes := ((hwf.2 u hu).2.2 v hvadj).1
  have h5 : ¬ interCount (st.neighbors u) (st.neighbors v) < wsub k 2 := hfix (u, v) hedge
  unfold interCount at h5
  have hw2 : wsub k 2 = k - 2 := wsub_eq_sub (by omega) hkb (by norm_num)
  have hunign : u ∉ ign := by
    intro huign
    have hlive := hignLive u huign
    unfold liveDeg at hlive
    have hvnotL : v ∉ (st.neighbors u).filter (fun w => decide (w ∈ st.neighbors v)) := by
      intro hvL
      have h2 := List.of_mem_filter hvL
      simp only [decide_eq_true_eq] at h2
      have hvv : v ∈ g.adj v := ((hR v hvnodes v).1 h2).1
      exact (hwf.2 v hvnodes).2.1 hvv
    have hndLv : ((st.neighbors u).filter (fun w => decide (w ∈ st.neighbors v)) ++ [v]).Nodup := by
      rw [List.nodup_append]
      refine ⟨(hnd u hu).filter _, List.nodup_singleton v, ?_⟩
      intro x hx hx2
      rw [List.mem_singleton] at hx2
      subst hx2
      exact hvnotL hx
    have hsub : ∀ x ∈ (st.neighbors u).filter (fun w => decide (w ∈ st.neighbors v)) ++ [v],
        x ∈ (g.adj u).filter (fun w => decide (w ∉ ign)) := by
      intro x hx
      have hxn : x ∈ st.neighbors u := by
        rcases List.mem_append.1 hx with h | h
        · exact List.mem_of_mem_filter h
        · rw [List.mem_singleton] at h
          subst h
          exact hv
      have hx3 := (hR u hu x).1 hxn
      exact List.mem_filter.2 ⟨hx3.1, decide_eq_true hx3.2.1⟩
    have hlen := nodup_subset_length_le hndLv hsub
    rw [List.length_append, List.length_singleton] at hlen
    omega
  have hcanonU : ∀ w ∈ (st.neighbors u).filter (fun w => decide (w ∈ st.neighbors v)),
      canonPair u w ∈ buildTruss g st (componentsMembership g st.ignoreEdges).1 idx := by
    intro w hw
    exact buildTruss_canon_mem g hwf ign st hinv idx u w hu hunign
      (List.mem_of_mem_filter hw) hcu
  have hcanonV : ∀ w ∈ (st.neighbors u).filter (fun w => decide (w ∈ st.neighbors v)),
      canonPair v w ∈ buildTruss g st (componentsMembership g st.ignoreEdges).1 idx := by
    intro w hw
    have h2 := List.of_mem_filter hw
    simp only [decide_eq_true_eq] at h2
    exact buildTruss_canon_mem g hwf ign st hinv idx v w hvnodes hvign h2 hcv
  have hsupp : ((st.neighbors u).filter (fun w => decide (w ∈ st.neighbors v))).length ≤
      trussSupport g (buildTruss g st (componentsMembership g st.ignoreEdges).1 idx) (u, v) := by
    unfold trussSupport
    apply nodup_subset_length_le ((hnd u hu).filter _)
    intro w hw
    have hw1 : w ∈ st.neighbors u := List.mem_of_mem_filter hw
    have hwadj : w ∈ g.adj u := ((hR u hu w).1 hw1).1
    have hwnodes : w ∈ g.nodes := ((hwf.2 u hu).2.2 w hwadj).1
    rw [List.mem_filter]
    refine ⟨hwnodes, ?_⟩
    apply decide_eq_true
    exact ⟨hcanonU w hw, hcanonV w hw⟩
  omega

/-- **C7.** For every well-formed graph and every `k` with `2 ≤ k < 2^64`,
every edge `(u, v)` of an edge set returned by `get_k_trusses(k)` has at
least `k - 2` common neighbors `w` within that truss: nodes `w` such that the
canonical edges `(u, w)` and `(v, w)` both belong to the same returned truss,
so the edge has triangle support at least `k - 2` in the truss's node-induced
subgraph. -/
theorem ktruss_support_c7 (g : SGraph) (hwf : WF g) (k : Nat)
    (hk : 2 ≤ k) (hkb : k < 2 ^ 64) :
    ∀ t ∈ (getKTrusses g k).1, ∀ e ∈ t, k - 2 ≤ trussSupport g t e := by
  intro t ht e he
  have hignLive : ∀ u ∈ (getKCoresFrom g (wsub k 1) ∅).2,
      liveDeg g (getKCoresFrom g (wsub k 1) ∅).2 u < k - 1 := by
    intro u hu
    have hu2 : u ∈ (kCoresRun g (wsub k 1) ∅ (kCoresFuel g)).removed := hu
    have h := kc_ignored_liveDeg_lt g (wsub k 1) hwf u hu2
    have hws : wsub k 1 = k - 1 := @wsub_eq_sub k 1 (by omega) hkb (by norm_num)
    have h2 : liveDeg g (getKCoresFrom g (wsub k 1) ∅).2 u < wsub k 1 := h
    omega
  obtain ⟨hinv, hfix⟩ := trussLoop_spec g (getKCoresFrom g (wsub k 1) ∅).2 k
    ((trussInit g (getKCoresFrom g (wsub k 1) ∅).2).edges.length + 1)
    (trussInit g (getKCoresFrom g (wsub k 1) ∅).2)
    (trussInit_inv g hwf (getKCoresFrom g (wsub k 1) ∅).2)
    (Nat.lt_succ_self _)
  rcases List.mem_map.1 (List.mem_of_mem_filter ht) with ⟨idx, hidx, rfl⟩
  have hres := buildTruss_support g hwf k (getKCoresFrom g (wsub k 1) ∅).2 hk hkb hignLive
    (trussLoop k ((trussInit g (getKCoresFrom g (wsub k 1) ∅).2).edges.length + 1)
      (trussInit g (getKCoresFrom g (wsub k 1) ∅).2)) hinv hfix idx e he
  rwa [wsub_eq_sub hk hkb (by norm_num)] at hres

theorem ktruss_support_c7_witness :
    WF gT3 ∧ 2 ≤ 3 ∧ 3 < 2 ^ 64 ∧
    (∀ t ∈ (getKTrusses gT3 3).1, ∀ e ∈ t, 3 - 2 ≤ trussSupport gT3 t e) :=
  ⟨by decide, by decide, by decide,
    ktruss_support_c7 gT3 (by decide) 3 (by decide) (by decide)⟩

end Dachshund
